import Mathlib

/-!
Verification development for the chatgpt-export-viewer ingestion core.

The definitions below are a shallow embedding of the TypeScript source:
  * scripts/shared/slimConvert.ts   (graph conversion, path validation, merge order)
  * scripts/shared/datasetImporter.ts (batch reconciliation, clone ids, dataset writing)
  * scripts/shared/exportExtras.ts  (sidecar metadata, generated assets)
  * src/lib/text.ts, src/lib/searchBuilder.ts, the search worker (trigram search)
  * src/state/AppDataContext.tsx    (browser-side merge prefilter and clone ids)

JavaScript runtime primitives that cannot be embedded (Unicode NFKC
normalization, locale lowercasing, JSON.parse) are taken as explicit
function parameters, bundled in the JsPrims structure.  JS strings are
modelled as Lean String (lists of code points), JS numbers occurring as
timestamps / counters as Nat, and binary entry payloads as String.
The file lists all definitions first, then all theorems.
-/

set_option maxHeartbeats 1000000

/-! # Definitions -/

/-! ## Association lists (model of JS Map insertion-ordered semantics) -/

/-- Lookup in an insertion-ordered association list (JS Map.get). -/
def alookup {β : Type} (k : String) : List (String × β) → Option β
  | [] => none
  | (k', v) :: rest => if k' = k then some v else alookup k rest

/-- Insert-or-replace in an insertion-ordered association list (JS Map.set):
an existing key keeps its position, a new key is appended at the end. -/
def aset {β : Type} (k : String) (v : β) : List (String × β) → List (String × β)
  | [] => [(k, v)]
  | (k', v') :: rest => if k' = k then (k, v) :: rest else (k', v') :: aset k v rest

/-- Keys of an association list, in insertion order (JS Map.keys). -/
def akeys {β : Type} (l : List (String × β)) : List String :=
  l.map (fun e => e.1)

/-! ## Decimal rendering of numbers (model of JS template-literal printing) -/

/-- Single decimal digit to its character, for digits 0..9. -/
def digitChar (d : Nat) : Char :=
  match d with
  | 0 => '0' | 1 => '1' | 2 => '2' | 3 => '3' | 4 => '4'
  | 5 => '5' | 6 => '6' | 7 => '7' | 8 => '8' | _ => '9'

/-- Numeric value of a decimal digit character. -/
def digitVal (c : Char) : Nat := c.toNat - 48

/-- Big-endian decimal digit list of a natural number (JS decimal printing). -/
def natToDigits (n : Nat) : List Char :=
  if _h : n < 10 then [digitChar n]
  else natToDigits (n / 10) ++ [digitChar (n % 10)]
decreasing_by exact Nat.div_lt_self (by omega) (by omega)

/-- Value of a big-endian decimal digit list (model of JS Number on digit strings). -/
def digitsToNat (ds : List Char) : Nat :=
  ds.foldl (fun acc c => acc * 10 + digitVal c) 0

/-- Decimal string of a natural number. -/
def natRepr (n : Nat) : String :=
  String.mk (natToDigits n)

/-! ## Path splitting and joining (model of JS String.split and Array.join) -/

/-- JS String.prototype.split with a single-character separator: always yields
at least one piece, empty pieces included. -/
def splitOnChar (sep : Char) : List Char → List (List Char)
  | [] => [[]]
  | c :: rest =>
    if c = sep then [] :: splitOnChar sep rest
    else
      match splitOnChar sep rest with
      | [] => [[c]]
      | h :: t => (c :: h) :: t

/-- JS Array.prototype.join with a single-character separator. -/
def joinWithChar (sep : Char) : List (List Char) → List Char
  | [] => []
  | [p] => p
  | p :: rest => p ++ sep :: joinWithChar sep rest

/-! ## Asset path validation and normalization (slimConvert.ts) -/

/-- Replace every backslash by a forward slash (the first regex replace of
normalizePath in scripts/shared/slimConvert.ts). -/
def replaceBackslashes (cs : List Char) : List Char :=
  cs.map (fun c => if c = '\\' then '/' else c)

/-- Strip one leading dot optionally followed by a slash (the second regex
replace of normalizePath). -/
def stripLeadingDotSlash (cs : List Char) : List Char :=
  match cs with
  | [] => []
  | a :: rest =>
    if a = '.' then
      match rest with
      | b :: rest2 => if b = '/' then rest2 else rest
      | [] => []
    else cs

/-- One step of the segment cleanup loop of normalizePath: skip empty and dot
segments, let a dot-dot segment pop the previously kept one. -/
def normSegStep (acc : List (List Char)) (part : List Char) : List (List Char) :=
  if part = [] ∨ part = ['.'] then acc
  else if part = ['.', '.'] then acc.dropLast
  else acc ++ [part]

/-- Segment cleanup loop of normalizePath (also the POSIX resolve semantics). -/
def normalizeSegs (parts : List (List Char)) : List (List Char) :=
  parts.foldl normSegStep []

/-- Embeds normalizePath of scripts/shared/slimConvert.ts. -/
def normalizePath (input : String) : String :=
  let noBack := replaceBackslashes input.data
  let stripped := stripLeadingDotSlash noBack
  let strippedSlash := stripped.dropWhile (fun c => c = '/')
  String.mk (joinWithChar '/' (normalizeSegs (splitOnChar '/' strippedSlash)))

/-- Embeds pathHasTraversal of scripts/shared/slimConvert.ts. -/
def pathHasTraversal (value : String) : Bool :=
  (splitOnChar '/' value.data).any (fun seg => seg = ['.', '.'])

/-- True when the list starts with the given character. -/
def startsWithChar (c : Char) : List Char → Bool
  | [] => false
  | x :: _ => x = c

/-- Test for a Windows drive-letter start, regex A-Za-z colon anchored left. -/
def hasDriveLetter : List Char → Bool
  | c :: ':' :: _ => c.isAlpha
  | _ => false

/-- Embeds isSafeRelativePath of scripts/shared/slimConvert.ts. -/
def isSafeRelativePath (input : String) : Bool :=
  if input.data = [] then false
  else if '\x00' ∈ input.data then false
  else if '\\' ∈ input.data then false
  else if startsWithChar '/' input.data then false
  else if hasDriveLetter input.data then false
  else if pathHasTraversal input then false
  else decide ((normalizePath input).length > 0)

/-- Model of node path.resolve on POSIX for an absolute first argument:
normalize the concatenation, dot-dot above the root is dropped. -/
def resolvePosix (root rel : String) : String :=
  let combined :=
    if startsWithChar '/' rel.data then rel.data else root.data ++ '/' :: rel.data
  String.mk ('/' :: joinWithChar '/' (normalizeSegs (splitOnChar '/' combined)))

/-- Structural string-prefix test (JS String.prototype.startsWith). -/
def listIsPrefix : List Char → List Char → Bool
  | [], _ => true
  | _ :: _, [] => false
  | a :: p, b :: s => a = b && listIsPrefix p s

/-- Prefix test on strings through their character lists. -/
def strIsPrefix (p s : String) : Bool :=
  listIsPrefix p.data s.data

/-- True when the string ends with a slash (JS String.prototype.endsWith). -/
def endsWithSlash (s : String) : Bool :=
  match s.data.getLast? with
  | some c => c = '/'
  | none => false

/-- Embeds safeJoinUnder of scripts/shared/datasetImporter.ts with the POSIX
resolve model: the resolved target is returned only when it stays at or under
the root directory. -/
def safeJoinUnder (rootDir relativePath : String) : Option String :=
  let target := resolvePosix rootDir relativePath
  let rootWithSep := if endsWithSlash rootDir then rootDir else rootDir ++ "/"
  if target = rootDir ∨ strIsPrefix rootWithSep target then some target else none

/-- The target path equals the root or extends it past a separator. -/
def isUnderDir (root p : String) : Prop :=
  p = root ∨ strIsPrefix (if endsWithSlash root then root else root ++ "/") p = true

/-- Model of the asset-writing loop of writeDataset in
scripts/shared/datasetImporter.ts: the destination file paths actually
written for a list of asset keys. -/
def writeAssetPaths (assetsDir : String) (assetKeys : List String) : List String :=
  assetKeys.filterMap (fun key =>
    if isSafeRelativePath key then safeJoinUnder assetsDir key else none)

/-- Cleanliness of one path segment after normalization. -/
def GoodSeg (p : List Char) : Prop :=
  p ≠ [] ∧ p ≠ ['.'] ∧ p ≠ ['.', '.'] ∧ '/' ∉ p ∧ '\\' ∉ p

/-! ## Merge precedence (slimConvert.ts shouldReplace, AppDataContext isNewerSummary) -/

/-- Fields compared when reconciling two payloads carrying the same conversation
id: ComparisonPayload of scripts/shared/slimConvert.ts. -/
structure ComparisonPayload where
  last_message_time : Nat
  mappingNodeCount : Option Nat
  importOrder : Nat
deriving Repr, DecidableEq

/-- Embeds shouldReplace of scripts/shared/slimConvert.ts: decides whether the
incoming payload replaces the current one under upsert merging. -/
def shouldReplace (current incoming : ComparisonPayload) : Bool :=
  if incoming.last_message_time > current.last_message_time then true
  else if incoming.last_message_time < current.last_message_time then false
  else if incoming.mappingNodeCount.getD 0 > current.mappingNodeCount.getD 0 then true
  else if incoming.mappingNodeCount.getD 0 < current.mappingNodeCount.getD 0 then false
  else decide (incoming.importOrder > current.importOrder)

/-- Modelled from the spec words for the upsert order: the incoming payload is
strictly newer when its last_message_time is greater; on equal
last_message_time when its node count is greater; and on equal
last_message_time and node count when its ingestion order is later. -/
def specStrictlyNewer (incoming current : ComparisonPayload) : Bool :=
  if incoming.last_message_time ≠ current.last_message_time then
    decide (incoming.last_message_time > current.last_message_time)
  else if incoming.mappingNodeCount.getD 0 ≠ current.mappingNodeCount.getD 0 then
    decide (incoming.mappingNodeCount.getD 0 > current.mappingNodeCount.getD 0)
  else decide (incoming.importOrder > current.importOrder)

/-- Summary record used for dataset listing and merge comparisons
(ConversationSummary of src/types.d.ts, fields relevant to the core). -/
structure ConversationSummary where
  id : String
  title : String
  snippet : String
  last_message_time : Nat
  create_time : Option Nat
  update_time : Option Nat
  mapping_node_count : Option Nat
  source : String
  pinned : Bool
deriving Repr, DecidableEq

/-- Embeds isNewerSummary of src/state/AppDataContext.tsx: the browser-side
upsert prefilter comparing an incoming summary against the existing local
record with the same id. -/
def isNewerSummary (incoming : ConversationSummary) (existing : Option ConversationSummary) :
    Bool :=
  match existing with
  | none => true
  | some e =>
    if incoming.last_message_time > e.last_message_time then true
    else if incoming.last_message_time = e.last_message_time ∧
        incoming.mapping_node_count.getD 0 > e.mapping_node_count.getD 0 then true
    else false

/-- Modelled from the code of isNewerSummary, for comparison with the spec
order: strictly greater time, or equal time with strictly greater node count.
No ingestion-order tiebreak exists on this path. -/
def newerNoOrderTiebreak (incoming existing : ConversationSummary) : Bool :=
  decide (incoming.last_message_time > existing.last_message_time) ||
    (decide (incoming.last_message_time = existing.last_message_time) &&
      decide (incoming.mapping_node_count.getD 0 > existing.mapping_node_count.getD 0))

/-! ## Text utilities (src/lib/text.ts) -/

/-- JS Array.prototype.join with a string separator. -/
def strJoinSep (sep : String) : List String → String
  | [] => ""
  | [s] => s
  | s :: rest => s ++ sep ++ strJoinSep sep rest

/-- Opening private-use citation marker U+E200 stripped by
sanitizeRenderedMarkdown in src/lib/text.ts. -/
def puaOpen : Char := Char.ofNat 0xE200

/-- Closing private-use citation marker U+E201. -/
def puaClose : Char := Char.ofNat 0xE201

/-- Stray private-use separator marker U+E202. -/
def puaSep : Char := Char.ofNat 0xE202

/-- First replace of sanitizeRenderedMarkdown: drop every span from U+E200 up
to the next U+E201, delimiters included; an opener with no closer stays. -/
def stripCitationSpans : List Char → List Char
  | [] => []
  | c :: rest =>
    if c = puaOpen then
      match h : rest.dropWhile (fun x => x ≠ puaClose) with
      | _ :: after => stripCitationSpans after
      | [] => c :: stripCitationSpans rest
    else c :: stripCitationSpans rest
termination_by cs => cs.length
decreasing_by
  all_goals first
    | (simp <;> omega)
    | (have h1 : (rest.dropWhile (fun x => x ≠ puaClose)).length ≤ rest.length :=
        (List.dropWhile_sublist _).length_le
       rw [h] at h1
       simp at h1 ⊢
       omega)

/-- Second replace of sanitizeRenderedMarkdown: drop stray markers. -/
def stripStrayMarkers (cs : List Char) : List Char :=
  cs.filter (fun c => !(c = puaOpen || c = puaClose || c = puaSep))

/-- Third replace of sanitizeRenderedMarkdown: a run of three or more
newlines becomes exactly two. -/
def collapseNewlines : List Char → List Char
  | [] => []
  | c :: rest =>
    if c = '\n' then
      let nl := rest.takeWhile (fun x => x = '\n')
      let after := rest.dropWhile (fun x => x = '\n')
      if nl.length + 1 ≥ 3 then '\n' :: '\n' :: collapseNewlines after
      else c :: (nl ++ collapseNewlines after)
    else c :: collapseNewlines rest
termination_by cs => cs.length
decreasing_by
  all_goals first
    | (simp <;> omega)
    | (have h1 : (rest.dropWhile (fun x => x = '\n')).length ≤ rest.length :=
        (List.dropWhile_sublist _).length_le
       simp
       omega)

/-- JS String.prototype.trim on character lists. -/
def jsTrim (cs : List Char) : List Char :=
  ((cs.dropWhile Char.isWhitespace).reverse.dropWhile Char.isWhitespace).reverse

/-- Embeds sanitizeRenderedMarkdown of src/lib/text.ts. -/
def sanitizeRenderedMarkdown (input : String) : String :=
  String.mk (jsTrim (collapseNewlines (stripStrayMarkers (stripCitationSpans input.data))))

/-- Split on a newline optionally preceded by a carriage return
(the split regex of linesFromText in src/lib/text.ts). -/
def splitNewlines : List Char → List (List Char)
  | [] => [[]]
  | '\r' :: '\n' :: rest => [] :: splitNewlines rest
  | '\n' :: rest => [] :: splitNewlines rest
  | c :: rest =>
    match splitNewlines rest with
    | [] => [[c]]
    | h :: t => (c :: h) :: t

/-- Embeds linesFromText of src/lib/text.ts. -/
def linesFromText (text : String) : List String :=
  (splitNewlines text.data).map String.mk

/-- Collapse every whitespace run to one space (the replace regex of
normalizeSearchText and buildSnippet). -/
def collapseWhitespaceRuns : List Char → List Char
  | [] => []
  | c :: rest =>
    if c.isWhitespace then ' ' :: collapseWhitespaceRuns (rest.dropWhile Char.isWhitespace)
    else c :: collapseWhitespaceRuns rest
termination_by cs => cs.length
decreasing_by
  all_goals first
    | (simp <;> omega)
    | (have h1 : (rest.dropWhile Char.isWhitespace).length ≤ rest.length :=
        (List.dropWhile_sublist _).length_le
       simp
       omega)

/-- Embeds buildSnippet of scripts/shared/slimConvert.ts. -/
def buildSnippet (text : String) : String :=
  String.mk ((jsTrim (collapseWhitespaceRuns (sanitizeRenderedMarkdown text).data)).take 120)

/-- JS Set insertion-order deduplication of a string list. -/
def jsSetDedup (xs : List String) : List String :=
  xs.foldl (fun acc x => if x ∈ acc then acc else acc ++ [x]) []

/-! ## Raw graph data model (src/types.d.ts) -/

/-- One fragment of a thoughts content payload (GraphThoughtFragment). -/
structure ThoughtFragment where
  content : Option String
  summary : Option String
deriving Repr, DecidableEq

/-- Scalar fields of a multimodal content part inspected by convertPart.
metaName and metaSummary stand for metadata.name and metadata.summary, and
ttsText for the nested tts.text field. -/
structure RawPartFields where
  content_type : Option String
  language : Option String
  text : Option String
  code : Option String
  asset_pointer : Option String
  transcript : Option String
  metaName : Option String
  metaSummary : Option String
  ttsText : Option String
deriving Repr, DecidableEq

/-- A multimodal content part: null, a bare string, or an object with scalar
fields and an optional nested parts array (GraphMultimodalContentPart). -/
inductive RawPart where
  | nullPart : RawPart
  | strPart : String → RawPart
  | objPart : RawPartFields → Option (List RawPart) → RawPart

/-- Message content payload fields inspected by the converter
(GraphMessageContent). -/
structure RawContent where
  content_type : Option String
  parts : Option (List RawPart)
  text : Option String
  transcript : Option String
  thoughts : Option (List ThoughtFragment)

/-- One search query entry of message metadata. -/
structure SearchQueryEntry where
  q : Option String
deriving Repr, DecidableEq

/-- One search result group of message metadata. -/
structure SearchResultGroup where
  domain : Option String
deriving Repr, DecidableEq

/-- One retrieval search source of message metadata. -/
structure RetrievalSource where
  sourceId : Option String
  display_name : Option String
deriving Repr, DecidableEq

/-- Message metadata fields inspected by extractSearchDetails
(GraphMessageMetadata). -/
structure GraphMessageMetadata where
  search_queries : Option (List SearchQueryEntry)
  search_result_groups : Option (List SearchResultGroup)
  retrieval_search_sources : Option (List RetrievalSource)
  search_display_string : Option String
  deep_research_version : Option String
deriving Repr, DecidableEq

/-- Raw graph message (GraphMessage); authorRole stands for author.role. -/
structure RawMessage where
  id : Option String
  authorRole : Option String
  create_time : Option Nat
  update_time : Option Nat
  recipient : Option String
  metadata : Option GraphMessageMetadata
  content : Option RawContent

/-- Raw graph node (GraphNode). -/
structure RawNode where
  id : String
  parent : Option String
  children : Option (List String)
  message : Option RawMessage

/-- Raw graph conversation (GraphConversation), fields used by the converter. -/
structure RawConversation where
  conversation_id : Option String
  title : Option String
  current_node : Option String
  mapping : Option (List (String × RawNode))
  create_time : Option Nat
  update_time : Option Nat

/-- Asset descriptor: a bare path string or an object with file_path and
download_url fields (AssetReference of src/types.d.ts). -/
inductive AssetRef where
  | strRef : String → AssetRef
  | objRef : Option String → Option String → AssetRef
deriving Repr, DecidableEq

/-- Pointer-to-descriptor asset index embedded in chat.html (AssetIndex). -/
abbrev AssetsIndex : Type := List (String × AssetRef)

/-! ## Slim conversation data model (src/types.d.ts) -/

/-- Content block of a slim message (Block). -/
inductive Block where
  | markdown : String → Block
  | code : String → String → Block
  | asset : String → String → Option String → Block
  | transcriptBlock : String → Block
deriving Repr, DecidableEq

/-- Search details attached to a message (Details.search). -/
structure SearchDetails where
  kind : Option String
  content : Option String
  queries : List String
  sources : Option (List String)
deriving Repr, DecidableEq

/-- Side-channel details of a slim message (Details). -/
structure Details where
  thinking : Option String
  search : Option SearchDetails
  data : Option GraphMessageMetadata
deriving Repr, DecidableEq

/-- Alternate assistant regeneration (MessageVariant). -/
structure MessageVariant where
  id : String
  time : Option Nat
  blocks : List Block
  details : Option Details
deriving Repr, DecidableEq

/-! ## Timestamp normalization (slimConvert.ts) -/

/-- Embeds normalizeMs of scripts/shared/slimConvert.ts: zero and absent map
to zero, values above ten billion are already milliseconds, anything else is
seconds and is multiplied by one thousand. -/
def normalizeMs (value : Option Nat) : Nat :=
  match value with
  | none => 0
  | some v => if v = 0 then 0 else if v > 10000000000 then v else v * 1000

/-- Embeds normalizeOptionalMs of scripts/shared/slimConvert.ts. -/
def normalizeOptionalMs (value : Option Nat) : Option Nat :=
  match value with
  | none => none
  | some v => if v = 0 then none else some (normalizeMs (some v))

/-! ## Media type detection (slimConvert.ts) -/

/-- ASCII lowercasing of one character. -/
def asciiLower (c : Char) : Char :=
  if 'A' ≤ c ∧ c ≤ 'Z' then Char.ofNat (c.toNat + 32) else c

/-- Suffix test on character lists. -/
def listEndsWith (suffix l : List Char) : Bool :=
  listIsPrefix suffix.reverse l.reverse

/-- Case-insensitive test for a dot-extension at the end of a path. -/
def hasExtIn (path : String) (exts : List String) : Bool :=
  exts.any (fun ext => listEndsWith ('.' :: ext.data) (path.data.map asciiLower))

/-- Embeds detectMediaType of scripts/shared/slimConvert.ts. -/
def detectMediaType (path : String) : String :=
  if hasExtIn path ["png", "jpg", "jpeg", "gif", "webp", "svg"] then "image"
  else if hasExtIn path ["mp3", "wav", "m4a", "ogg"] then "audio"
  else if hasExtIn path ["mp4", "webm", "mov"] then "video"
  else "file"

/-- Embeds guessMimeByPath of scripts/shared/slimConvert.ts. -/
def guessMimeByPath (path : String) : String :=
  if hasExtIn path ["png"] then "image/png"
  else if hasExtIn path ["jpg", "jpeg"] then "image/jpeg"
  else if hasExtIn path ["gif"] then "image/gif"
  else if hasExtIn path ["webp"] then "image/webp"
  else if hasExtIn path ["svg"] then "image/svg+xml"
  else if hasExtIn path ["mp3"] then "audio/mpeg"
  else if hasExtIn path ["wav"] then "audio/wav"
  else if hasExtIn path ["m4a"] then "audio/mp4"
  else if hasExtIn path ["mp4"] then "video/mp4"
  else if hasExtIn path ["webm"] then "video/webm"
  else if hasExtIn path ["json"] then "application/json"
  else if hasExtIn path ["txt"] then "text/plain"
  else if hasExtIn path ["dat"] then "application/octet-stream"
  else "application/octet-stream"

/-- Embeds resolveAssetKey of scripts/shared/slimConvert.ts. -/
def resolveAssetKey (pointer : String) (assetsJson : AssetsIndex) : Option String :=
  match alookup pointer assetsJson with
  | none => none
  | some (AssetRef.strRef s) =>
    if isSafeRelativePath s then some (normalizePath s) else none
  | some (AssetRef.objRef fp du) =>
    if fp.getD "" ≠ "" then
      if isSafeRelativePath (fp.getD "") then some (normalizePath (fp.getD "")) else none
    else if du.getD "" ≠ "" then
      if isSafeRelativePath (du.getD "") then some (normalizePath (du.getD "")) else none
    else none

/-! ## Markdown block segmentation (slimConvert.ts splitMarkdownIntoBlocks) -/

/-- The language tag of a fence line: the line must start with three
backquotes, the capture is the rest of the line, trimmed. -/
def fenceLineLang (cs : List Char) : Option String :=
  match cs with
  | '`' :: '`' :: '`' :: rest => some (String.mk (jsTrim rest))
  | _ => none

/-- Loop state of splitMarkdownIntoBlocks. -/
structure MdState where
  blocks : List Block
  buffer : List String
  inFence : Bool
  fenceLang : String
  fenceBuffer : List String
deriving Repr, DecidableEq

/-- One line step of the splitMarkdownIntoBlocks loop. -/
def mdStep (st : MdState) (line : String) : MdState :=
  match fenceLineLang line.data with
  | some lang =>
    if st.inFence then
      { st with
        blocks := st.blocks ++
          [Block.code (if st.fenceLang = "" then "text" else st.fenceLang)
            (strJoinSep "\n" st.fenceBuffer)],
        fenceBuffer := [], fenceLang := "", inFence := false }
    else
      let st1 :=
        if st.buffer.isEmpty then st
        else
          { st with
            blocks := st.blocks ++ [Block.markdown (strJoinSep "\n" st.buffer)]
            buffer := [] }
      { st1 with inFence := true, fenceLang := lang }
  | none =>
    if st.inFence then { st with fenceBuffer := st.fenceBuffer ++ [line] }
    else { st with buffer := st.buffer ++ [line] }

/-- Embeds splitMarkdownIntoBlocks of scripts/shared/slimConvert.ts. -/
def splitMarkdownIntoBlocks (text : String) : List Block :=
  let sanitizedText := sanitizeRenderedMarkdown text
  if sanitizedText = "" then []
  else
    let st := (linesFromText sanitizedText).foldl mdStep
      { blocks := [], buffer := [], inFence := false, fenceLang := "", fenceBuffer := [] }
    let blocks1 :=
      if st.fenceBuffer.isEmpty then st.blocks
      else st.blocks ++
        [Block.code (if st.fenceLang = "" then "text" else st.fenceLang)
          (strJoinSep "\n" st.fenceBuffer)]
    let blocks2 :=
      if st.buffer.isEmpty then blocks1
      else blocks1 ++ [Block.markdown (strJoinSep "\n" st.buffer)]
    if blocks2.isEmpty then [Block.markdown sanitizedText] else blocks2

/-! ## Content part conversion (slimConvert.ts convertPart and convertParts) -/

/-- Code-block language of a code content part: the language field when it is
a nonempty string, text otherwise. -/
def codeLangOf (f : RawPartFields) : String :=
  match f.language with
  | some l => if l = "" then "text" else l
  | none => "text"

/-- Code-block text of a code content part: the text field when present, else
the code field, else empty. -/
def codeTextOf (f : RawPartFields) : String :=
  match f.text with
  | some t => t
  | none =>
    match f.code with
    | some c => c
    | none => ""

/-- True for the asset-flavoured content types handled by convertPart. -/
def isAssetContentType (ct : Option String) : Bool :=
  ct = some "image_file" || ct = some "asset_pointer" || ct = some "file" ||
    ct = some "image_asset_pointer"

/-- The asset branch of convertPart: resolve the pointer, record the
pointer-to-key mapping, emit an asset block; drop the part when unresolved. -/
def assetBranch (assetsJson : AssetsIndex) (f : RawPartFields) :
    List Block × List (String × String) :=
  match f.asset_pointer with
  | some pointer =>
    if pointer ≠ "" then
      match resolveAssetKey pointer assetsJson with
      | some assetKey =>
        ([Block.asset pointer (detectMediaType assetKey) f.metaName], [(pointer, assetKey)])
      | none => ([], [])
    else ([], [])
  | none => ([], [])

/-- The transcript condition of convertPart: content type transcript, or a
nonempty transcript field. -/
def isTranscriptPart (f : RawPartFields) : Bool :=
  f.content_type = some "transcript" || f.transcript.getD "" ≠ ""

/-- The final text fallback of convertPart: the text field when present, else
the nested tts text, else empty. -/
def fallbackTextOf (f : RawPartFields) : String :=
  match f.text with
  | some t => t
  | none => f.ttsText.getD ""

mutual

/-- Embeds convertPart of scripts/shared/slimConvert.ts; the second component
collects the assetsMap entries the source writes by mutation. -/
def convertPart (assetsJson : AssetsIndex) : RawPart → List Block × List (String × String)
  | RawPart.nullPart => ([], [])
  | RawPart.strPart s =>
    if (jsTrim s.data).length ≠ 0 then (splitMarkdownIntoBlocks s, []) else ([], [])
  | RawPart.objPart f parts =>
    match parts with
    | some ps => convertObjWithParts assetsJson f ps
    | none => convertObjNoParts assetsJson f

/-- Object part with a nested parts array. -/
def convertObjWithParts (assetsJson : AssetsIndex) (f : RawPartFields)
    (ps : List RawPart) : List Block × List (String × String) :=
  if f.content_type = some "multimodal_text" then convertPartList assetsJson ps
  else if f.content_type = some "code" then ([Block.code (codeLangOf f) (codeTextOf f)], [])
  else if isAssetContentType f.content_type then assetBranch assetsJson f
  else if isTranscriptPart f then ([Block.transcriptBlock (f.transcript.getD "")], [])
  else if !ps.isEmpty then convertPartList assetsJson ps
  else if fallbackTextOf f = "" then ([], [])
  else (splitMarkdownIntoBlocks (fallbackTextOf f), [])

/-- Object part without a nested parts array. -/
def convertObjNoParts (assetsJson : AssetsIndex) (f : RawPartFields) :
    List Block × List (String × String) :=
  if f.content_type = some "code" then ([Block.code (codeLangOf f) (codeTextOf f)], [])
  else if isAssetContentType f.content_type then assetBranch assetsJson f
  else if isTranscriptPart f then ([Block.transcriptBlock (f.transcript.getD "")], [])
  else if fallbackTextOf f = "" then ([], [])
  else (splitMarkdownIntoBlocks (fallbackTextOf f), [])

/-- The flatMap over a parts array in convertParts and convertPart. -/
def convertPartList (assetsJson : AssetsIndex) :
    List RawPart → List Block × List (String × String)
  | [] => ([], [])
  | p :: rest =>
    let r1 := convertPart assetsJson p
    let r2 := convertPartList assetsJson rest
    (r1.1 ++ r2.1, r1.2 ++ r2.2)

end

/-- Embeds convertParts of scripts/shared/slimConvert.ts. -/
def convertParts (assetsJson : AssetsIndex) (content : Option RawContent) :
    List Block × List (String × String) :=
  match content with
  | none => ([], [])
  | some c =>
    match c.parts with
    | some ps => convertPartList assetsJson ps
    | none =>
      let textValue : Option String :=
        match c.text with
        | some t => some t
        | none => c.transcript
      match textValue with
      | some t => if t ≠ "" then (splitMarkdownIntoBlocks t, []) else ([], [])
      | none => ([], [])

/-! ## Side-channel details extraction (slimConvert.ts) -/

mutual

/-- Embeds collectThinkingFromParts of scripts/shared/slimConvert.ts, returning
the collected bucket instead of mutating it. -/
def collectThinkingFromParts : List RawPart → List String
  | [] => []
  | p :: rest => collectThinkingFromOne p ++ collectThinkingFromParts rest

/-- The body of the collectThinkingFromParts forEach for one part. -/
def collectThinkingFromOne : RawPart → List String
  | RawPart.nullPart => []
  | RawPart.strPart _ => []
  | RawPart.objPart f parts =>
    let own :=
      if f.content_type = some "thought" ∨ f.content_type = some "thoughts" then
        match (match f.text with
          | some t => some t
          | none => f.metaSummary) with
        | some t => if (jsTrim t.data).isEmpty then [] else [String.mk (jsTrim t.data)]
        | none => []
      else []
    own ++ (match parts with
      | some ps => collectThinkingFromParts ps
      | none => [])

end

/-- Embeds extractThinking of scripts/shared/slimConvert.ts. -/
def extractThinking (content : Option RawContent) : Option String :=
  match content with
  | none => none
  | some c =>
    let segments :=
      if c.content_type = some "thoughts" ∧ c.thoughts.isSome then
        (c.thoughts.getD []).foldr (fun th acc =>
          match (match th.content with
            | some s => some s
            | none => th.summary) with
          | some s => if (jsTrim s.data).isEmpty then acc else String.mk (jsTrim s.data) :: acc
          | none => acc) []
      else []
    let segments2 :=
      if c.parts.isSome ∧ segments.isEmpty then collectThinkingFromParts (c.parts.getD [])
      else segments
    if segments2.isEmpty then none else some (strJoinSep "\n\n" segments2)

/-- Case of extractSearchDetails for the deep-research marker: any string
value of deep_research_version maps to the literal deep-research kind. -/
def deepResearchKind (meta : GraphMessageMetadata) : Option String :=
  match meta.deep_research_version with
  | some _ => some "deep-research"
  | none => none

/-- Embeds extractSearchDetails of scripts/shared/slimConvert.ts. -/
def extractSearchDetails (metadata : Option GraphMessageMetadata) : Option SearchDetails :=
  match metadata with
  | none => none
  | some meta =>
    let queries := (meta.search_queries.getD []).filterMap (fun entry =>
      match entry.q with
      | some q => if (jsTrim q.data).isEmpty then none else some (String.mk (jsTrim q.data))
      | none => none)
    let domains1 := (meta.search_result_groups.getD []).filterMap (fun g =>
      match g.domain with
      | some d => if d = "" then none else some d
      | none => none)
    let domains2 := (meta.retrieval_search_sources.getD []).filterMap (fun s =>
      match (match s.display_name with
        | some d => some d
        | none => s.sourceId) with
      | some l => if l = "" then none else some l
      | none => none)
    let domainList := jsSetDedup (domains1 ++ domains2)
    let searchKind : Option String :=
      match meta.search_display_string with
      | some s => if s ≠ "" then some s else deepResearchKind meta
      | none => deepResearchKind meta
    if queries.isEmpty ∧ domainList.isEmpty ∧ searchKind.isNone then none
    else
      let sections :=
        (if queries.isEmpty then []
         else [strJoinSep "\n" ("Queries:" :: queries.map (fun q => "• " ++ q))]) ++
        (if domainList.isEmpty then []
         else [strJoinSep "\n" ("Sources:" :: domainList.map (fun d => "• " ++ d))])
      some {
        kind := searchKind
        content := if sections.isEmpty then none else some (strJoinSep "\n\n" sections)
        queries := queries
        sources := if domainList.isEmpty then none else some domainList }

/-- Embeds cloneMetadata of scripts/shared/slimConvert.ts: a JSON
stringify-parse roundtrip, the identity on the modelled metadata record. -/
def cloneMetadata (metadata : GraphMessageMetadata) : GraphMessageMetadata :=
  metadata

/-- Embeds buildDetails of scripts/shared/slimConvert.ts. -/
def buildDetails (message : Option RawMessage) : Option Details :=
  match message with
  | none => none
  | some msg =>
    let thinking := extractThinking msg.content
    let search := extractSearchDetails msg.metadata
    let data :=
      match msg.metadata with
      | some m => some (cloneMetadata m)
      | none => none
    if thinking.isNone ∧ search.isNone ∧ data.isNone then none
    else some { thinking := thinking, search := search, data := data }

/-! ## Slim message and conversation (src/types.d.ts, slimConvert.ts) -/

/-- Slim message (Message of src/types.d.ts); the role is one of user,
assistant, system, tool. -/
structure Message where
  id : String
  role : String
  time : Option Nat
  recipient : Option String
  blocks : List Block
  details : Option Details
  variants : Option (List MessageVariant)
deriving DecidableEq

/-- Slim conversation (Conversation of src/types.d.ts). -/
structure Conversation where
  schema_version : Nat
  id : String
  title : String
  create_time : Option Nat
  update_time : Option Nat
  last_message_time : Nat
  assetsMap : Option (List (String × String))
  messages : List Message
deriving DecidableEq

/-- Result record of convertRawConversation (SlimConversionResult). -/
structure SlimConversionResult where
  conversation : Conversation
  snippet : String
  mappingNodeCount : Nat
  assetKeys : List String
deriving DecidableEq

/-- True for a markdown block. -/
def isMarkdownBlock : Block → Bool
  | Block.markdown _ => true
  | _ => false

/-- Embeds collectAssistantVariants of scripts/shared/slimConvert.ts. -/
def collectAssistantVariants (node : RawNode) (nodes : List (String × RawNode)) :
    List RawNode :=
  match node.parent with
  | none => []
  | some pid =>
    if pid = "" then []
    else
      match alookup pid nodes with
      | none => []
      | some parent =>
        match parent.children with
        | none => []
        | some children =>
          children.filterMap (fun childId =>
            match alookup childId nodes with
            | some child =>
              match child.message with
              | some m =>
                if child.id ≠ node.id ∧ m.authorRole = some "assistant" then some child
                else none
              | none => none
            | none => none)

/-- The id assigned to a slim message: the raw message id when it is a
nonempty string, else the node id. -/
def slimMessageId (raw : RawMessage) (node : RawNode) : String :=
  match raw.id with
  | some i => if i ≠ "" then i else node.id
  | none => node.id

/-- The raw timestamp candidate of a message: create_time when present, else
update_time. -/
def rawMessageTime (raw : RawMessage) : Option Nat :=
  match raw.create_time with
  | some t => some t
  | none => raw.update_time

/-- One variant record built by transformMessage, with its asset additions. -/
def buildVariant (assetsJson : AssetsIndex) (variant : RawNode) :
    MessageVariant × List (String × String) :=
  let vconv := convertParts assetsJson (match variant.message with
    | some m => m.content
    | none => none)
  ({ id :=
      match variant.message with
      | some m => slimMessageId m variant
      | none => variant.id
     time :=
      match variant.message with
      | some m => normalizeOptionalMs (rawMessageTime m)
      | none => none
     blocks := vconv.1
     details := buildDetails variant.message }, vconv.2)

/-- Embeds transformMessage of scripts/shared/slimConvert.ts; the second
component collects the assetsMap entries written by mutation in the source. -/
def transformMessage (node : RawNode) (nodes : List (String × RawNode))
    (assetsJson : AssetsIndex) : Option Message × List (String × String) :=
  match node.message with
  | none => (none, [])
  | some raw =>
    let role := raw.authorRole.getD "user"
    let conv := convertParts assetsJson raw.content
    let details := buildDetails (some raw)
    let slimRole :=
      if role = "assistant" ∨ role = "user" ∨ role = "system" ∨ role = "tool" then role
      else "user"
    let variantNodes :=
      if slimRole = "assistant" then collectAssistantVariants node nodes else []
    let variantResults := variantNodes.map (buildVariant assetsJson)
    (some {
      id := slimMessageId raw node
      role := slimRole
      time := normalizeOptionalMs (rawMessageTime raw)
      recipient := raw.recipient
      blocks := conv.1
      details := details
      variants :=
        if slimRole = "assistant" ∧ ¬ variantResults.isEmpty then
          some (variantResults.map (fun r => r.1))
        else none },
     conv.2 ++ (variantResults.map (fun r => r.2)).flatten)

/-! ## Graph traversal and conversion (slimConvert.ts convertRawConversation) -/

/-- The next node of the parent-link traversal: follow a truthy parent
reference through the mapping. -/
def parentOf (nodes : List (String × RawNode)) (n : RawNode) : Option RawNode :=
  match n.parent with
  | some p => if p ≠ "" then alookup p nodes else none
  | none => none

/-- The while loop of convertRawConversation, fuel-indexed: walk parent links
from the cursor, stopping on a missing node or on a node id already visited. -/
def walkLoop (nodes : List (String × RawNode)) :
    Nat → Option RawNode → List String → List RawNode
  | 0, _, _ => []
  | _ + 1, none, _ => []
  | fuel + 1, some n, visited =>
    if n.id ∈ visited then []
    else n :: walkLoop nodes fuel (parentOf nodes n) (n.id :: visited)

/-- The complete traversal from current_node; one more unit of fuel than the
mapping has entries always suffices (proved below). -/
def walkPath (nodes : List (String × RawNode)) (current : String) : List RawNode :=
  walkLoop nodes (nodes.length + 1) (alookup current nodes) []

/-- Loop state of the conversion pass over the chronological path. -/
structure ConvState where
  messages : List Message
  assetPairs : List (String × String)
  snippet : String
  lastMessageTs : Nat
deriving DecidableEq

/-- One node step of the conversion pass of convertRawConversation: skip
message-less nodes, build the slim message, remember the first user snippet,
track the running last message timestamp. -/
def convStep (nodes : List (String × RawNode)) (assetsJson : AssetsIndex)
    (st : ConvState) (node : RawNode) : ConvState :=
  match node.message with
  | none => st
  | some _ =>
    match transformMessage node nodes assetsJson with
    | (none, _) => st
    | (some msg, pairs) =>
      let snippet1 :=
        if st.snippet = "" ∧ msg.role = "user" then
          match msg.blocks.find? isMarkdownBlock with
          | some (Block.markdown t) => if t ≠ "" then buildSnippet t else st.snippet
          | _ => st.snippet
        else st.snippet
      let last1 :=
        match msg.time with
        | some t => if t ≠ 0 ∧ t > st.lastMessageTs then t else st.lastMessageTs
        | none => st.lastMessageTs
      { messages := st.messages ++ [msg]
        assetPairs := st.assetPairs ++ pairs
        snippet := snippet1
        lastMessageTs := last1 }

/-- The id of the first message of a nonempty list. -/
def headMessageId : List Message → String
  | [] => ""
  | m :: _ => m.id

/-- Embeds buildTitleFromMessages of scripts/shared/slimConvert.ts. -/
def buildTitleFromMessages (messages : List Message) : String :=
  match messages.find? (fun m => m.role = "user") with
  | none => "Conversation"
  | some firstUser =>
    match firstUser.blocks.find? isMarkdownBlock with
    | some (Block.markdown t) => if t ≠ "" then buildSnippet t else "Conversation"
    | _ => "Conversation"

/-- The initial raw last-message accumulator of convertRawConversation: the
raw update time, else the raw create time, else zero (no normalization). -/
def initialLastTs (raw : RawConversation) : Nat :=
  match raw.update_time with
  | some t => t
  | none => raw.create_time.getD 0

/-- The loop state of convertRawConversation after the pass over the
chronological (reversed traversal) path. -/
def convertStateOf (nodes : List (String × RawNode)) (current : String)
    (raw : RawConversation) (assetsJson : AssetsIndex) : ConvState :=
  (walkPath nodes current).reverse.foldl (convStep nodes assetsJson)
    { messages := [], assetPairs := [], snippet := "", lastMessageTs := initialLastTs raw }

/-- The body of convertRawConversation once mapping and current node are
known to be present and truthy. -/
def convertCore (nodes : List (String × RawNode)) (current : String)
    (raw : RawConversation) (assetsJson : AssetsIndex) : Option SlimConversionResult :=
  let st := convertStateOf nodes current raw assetsJson
  if st.messages.isEmpty then none
  else
    let assetsMap := st.assetPairs.foldl (fun m kv => aset kv.1 kv.2 m) []
    some {
      conversation := {
        schema_version := 1
        id :=
          match raw.conversation_id with
          | some cid => cid
          | none => headMessageId st.messages
        title :=
          match raw.title with
          | some t => if t ≠ "" then t else buildTitleFromMessages st.messages
          | none => buildTitleFromMessages st.messages
        create_time := normalizeOptionalMs raw.create_time
        update_time := normalizeOptionalMs raw.update_time
        last_message_time := normalizeMs (some st.lastMessageTs)
        assetsMap := if assetsMap.isEmpty then none else some assetsMap
        messages := st.messages }
      snippet := st.snippet
      mappingNodeCount := nodes.length
      assetKeys := jsSetDedup (assetsMap.map (fun kv => kv.2)) }

/-- Embeds convertRawConversation of scripts/shared/slimConvert.ts. -/
def convertRawConversation (raw : RawConversation) (assetsJson : AssetsIndex) :
    Option SlimConversionResult :=
  match raw.mapping with
  | none => none
  | some nodes =>
    match raw.current_node with
    | none => none
    | some current =>
      if current = "" then none
      else convertCore nodes current raw assetsJson

/-- A valid parent chain of the claims: the list starts at the given node,
each node links to the next through a present, truthy parent reference, and
the last node is a root (no parent reference, or an empty one). -/
def ValidChainFrom (nodes : List (String × RawNode)) : RawNode → List RawNode → Prop
  | _, [] => False
  | n, [m] => m = n ∧ (n.parent = none ∨ n.parent = some "")
  | n, m :: m2 :: rest => m = n ∧ ∃ p, n.parent = some p ∧ p ≠ "" ∧
      ∃ n2, alookup p nodes = some n2 ∧ ValidChainFrom nodes n2 (m2 :: rest)

/-- Modelled from the spec: last_message_time is the maximum, expressed in
milliseconds, of the graph's stated update or create time and every raw
message timestamp observed while converting, each raw value treated as
milliseconds when above ten billion and multiplied by one thousand
otherwise. -/
def specLastMessageTime (raw : RawConversation) (msgTimes : List Nat) : Nat :=
  (msgTimes.map (fun t => normalizeMs (some t))).foldl Nat.max
    (normalizeMs (match raw.update_time with
      | some t => some t
      | none => raw.create_time))

/-! ## Search data model (src/types/search.ts) -/

/-- Location of one indexed line (SearchLocation). -/
structure SearchLocation where
  conversationId : String
  messageId : String
  blockIndex : Nat
  lineNo : Nat
deriving Repr, DecidableEq

/-- One indexed physical line (SearchLine). -/
structure SearchLine where
  loc : SearchLocation
  text : String
deriving Repr, DecidableEq

/-! ## Server payloads and clone ids (datasetImporter.ts) -/

/-- ServerConversationPayload of scripts/shared/datasetImporter.ts. -/
structure ServerPayload where
  summary : ConversationSummary
  conversation : Conversation
  searchLines : List SearchLine
  grams : List String
  assetKeys : List String
  mappingNodeCount : Nat
  importOrder : Nat
deriving DecidableEq

/-- The comparison fields of a server payload, as read by shouldReplace. -/
def ServerPayload.cmp (p : ServerPayload) : ComparisonPayload :=
  { last_message_time := p.summary.last_message_time
    mappingNodeCount := some p.mappingNodeCount
    importOrder := p.importOrder }

/-- Embeds splitCloneId of scripts/shared/datasetImporter.ts (and the
identical splitCloneIdentifier of src/state/AppDataContext.tsx): ids ending
in an underscore-v-digits suffix split into base and numeric suffix; all
other ids keep themselves as base with suffix one. -/
def splitCloneId (id : String) : String × Nat :=
  let rev := id.data.reverse
  let digits := rev.takeWhile Char.isDigit
  let rest := rev.dropWhile Char.isDigit
  match digits, rest with
  | _ :: _, 'v' :: '_' :: restBase => (String.mk restBase.reverse, digitsToNat digits.reverse)
  | _, _ => (id, 1)

/-- One id step of buildCloneTracker (also the non-clone tracker update of
ensureClonePayloadId): remember the highest suffix per base. -/
def trackStep (tracker : List (String × Nat)) (id : String) : List (String × Nat) :=
  let p := splitCloneId id
  let current := (alookup p.1 tracker).getD 0
  if p.2 > current then aset p.1 p.2 tracker else tracker

/-- Embeds buildCloneTracker of scripts/shared/datasetImporter.ts. -/
def buildCloneTracker (ids : List String) : List (String × Nat) :=
  ids.foldl trackStep []

/-- The while loop of ensureClonePayloadId, fuel-indexed: bump the suffix
until the candidate id is unused. -/
def findFreshSuffix (merged : List (String × ServerPayload)) (base : String) :
    Nat → Nat → Nat
  | n, 0 => n
  | n, fuel + 1 =>
    if (alookup (base ++ "_v" ++ natRepr n) merged).isSome then
      findFreshSuffix merged base (n + 1) fuel
    else n

/-- Embeds clonePayloadWithId of scripts/shared/datasetImporter.ts. -/
def clonePayloadWithId (payload : ServerPayload) (newId : String) : ServerPayload :=
  { payload with
    conversation := { payload.conversation with id := newId }
    summary := { payload.summary with id := newId }
    searchLines := payload.searchLines.map (fun line =>
      { line with loc := { line.loc with conversationId := newId } }) }

/-- Embeds ensureClonePayloadId of scripts/shared/datasetImporter.ts. -/
def ensureClonePayloadId (payload : ServerPayload)
    (merged : List (String × ServerPayload)) (tracker : List (String × Nat)) :
    ServerPayload × List (String × Nat) :=
  let originalId := payload.conversation.id
  let p := splitCloneId originalId
  if (alookup originalId merged).isSome then
    let nextSuffix := findFreshSuffix merged p.1
      (Nat.max ((alookup p.1 tracker).getD p.2) p.2 + 1) (merged.length + 1)
    (clonePayloadWithId payload (p.1 ++ "_v" ++ natRepr nextSuffix),
      aset p.1 nextSuffix tracker)
  else
    (payload, trackStep tracker originalId)

/-- One payload step of the clone branch of the importDatasets source loop:
assign a clone id, then insert into the merged map. -/
def cloneMergeStep (st : List (String × ServerPayload) × List (String × Nat))
    (payload : ServerPayload) : List (String × ServerPayload) × List (String × Nat) :=
  let r := ensureClonePayloadId payload st.1 st.2
  (aset r.1.conversation.id r.1 st.1, r.2)

/-- The clone branch of importDatasets over a whole incoming batch. -/
def runCloneMerge (merged0 : List (String × ServerPayload))
    (tracker0 : List (String × Nat)) (incoming : List ServerPayload) :
    List (String × ServerPayload) × List (String × Nat) :=
  incoming.foldl cloneMergeStep (merged0, tracker0)

/-- The highest clone suffix seen for a base among a list of ids; ids without
the suffix pattern count for their own base with suffix one. -/
def highestSuffix (base : String) : List String → Nat
  | [] => 0
  | id :: rest =>
    let p := splitCloneId id
    if p.1 = base then Nat.max p.2 (highestSuffix base rest) else highestSuffix base rest

/-- The tracker stores, for every base, exactly the highest suffix among the
merged ids (absent entries standing for zero). -/
def TrackerExact (merged : List (String × ServerPayload))
    (tracker : List (String × Nat)) : Prop :=
  ∀ base, (alookup base tracker).getD 0 = highestSuffix base (akeys merged)

/-- Concrete fixture: a raw user message with create time five seconds. -/
def wMsg : RawMessage :=
  { id := some "m1", authorRole := some "user", create_time := some 5, update_time := none,
    recipient := none, metadata := none, content := none }

/-- Concrete fixture: a root node carrying the fixture message. -/
def wNode : RawNode :=
  { id := "n1", parent := none, children := none, message := some wMsg }

/-- Concrete fixture: a one-node raw graph with raw update time one hundred
seconds. -/
def wGraph : RawConversation :=
  { conversation_id := some "c1", title := some "t", current_node := some "n1",
    mapping := some [("n1", wNode)], create_time := none, update_time := some 100 }

/-- Concrete fixture: a minimal slim conversation with a given id. -/
def wConv (id : String) : Conversation :=
  { schema_version := 1, id := id, title := "t", create_time := none, update_time := none,
    last_message_time := 0, assetsMap := none, messages := [] }

/-- Concrete fixture: a minimal summary with a given id. -/
def wSummary (id : String) : ConversationSummary :=
  { id := id, title := "t", snippet := "", last_message_time := 0, create_time := none,
    update_time := none, mapping_node_count := none, source := "local", pinned := false }

/-- Concrete fixture: a minimal server payload with a given id and import order. -/
def wPayload (id : String) (order : Nat) : ServerPayload :=
  { summary := wSummary id, conversation := wConv id, searchLines := [], grams := [],
    assetKeys := [], mappingNodeCount := 0, importOrder := order }

/-- Concrete fixture: an existing clone-mode dataset holding ids c1 and c1_v3. -/
def wCloneMerged : List (String × ServerPayload) :=
  [("c1", wPayload "c1" 0), ("c1_v3", wPayload "c1_v3" 1)]

/-- One upsert step of importDatasets (scripts/shared/datasetImporter.ts):
set the incoming payload when no record with its id exists or when
shouldReplace prefers it, leave the map unchanged otherwise. -/
def upsertStep (merged : List (String × ServerPayload)) (payload : ServerPayload) :
    List (String × ServerPayload) :=
  match alookup payload.conversation.id merged with
  | none => aset payload.conversation.id payload merged
  | some existing =>
    if shouldReplace existing.cmp payload.cmp then
      aset payload.conversation.id payload merged
    else merged

/-- The upsert branch of importDatasets over a whole incoming batch. -/
def runUpsertMerge (merged0 : List (String × ServerPayload))
    (incoming : List ServerPayload) : List (String × ServerPayload) :=
  incoming.foldl upsertStep merged0

/-- Concrete fixture: a summary with a given last message time and node count. -/
def wSummaryTN (t nodes : Nat) : ConversationSummary :=
  { wSummary "c1" with last_message_time := t, mapping_node_count := some nodes }

/-! ## Trigram search (src/lib/text.ts and the search worker of
scripts/shared/exportExtras.ts) -/

/-- JavaScript runtime string primitives the embedding cannot compute
(Unicode NFKC normalization and locale-aware lowercasing), taken as
explicit parameters. -/
structure JsPrims where
  nfkc : String → String
  toLocaleLower : String → String

/-- Embeds normalizeSearchText of src/lib/text.ts: NFKC-normalize, lowercase,
collapse whitespace runs to one space, trim. -/
def normalizeSearchText (prims : JsPrims) (input : String) : String :=
  String.mk (jsTrim (collapseWhitespaceRuns (prims.toLocaleLower (prims.nfkc input)).data))

/-- Embeds buildTrigrams of src/lib/text.ts: every length-3 window of the
normalized input, none when it is shorter than three characters. -/
def buildTrigrams (prims : JsPrims) (input : String) : List String :=
  let normalized := normalizeSearchText prims input
  if normalized.data.length < 3 then []
  else (List.range (normalized.data.length - 2)).map
    (fun i => String.mk ((normalized.data.drop i).take 3))

/-- Embeds intersectSets of the search worker: iterate the smaller set and
keep the members of the larger (JS Sets modelled as insertion-ordered
duplicate-free lists). -/
def intersectSets (a b : List String) : List String :=
  if a.length < b.length then a.filter (fun x => decide (x ∈ b))
  else b.filter (fun x => decide (x ∈ a))

/-- The posting map of buildIndexes: each gram of the bundle with its
conversation-id list read into a JS Set. -/
def buildPostings (grams : List (String × List String)) : List (String × List String) :=
  grams.map (fun e => (e.1, jsSetDedup e.2))

/-- The candidate loop of performSearch: fold the query grams over the
postings, intersecting; none models an early empty return (a gram with no
posting entry, or an empty running intersection, or no gram at all). -/
def candidateLoop (postings : List (String × List String)) :
    Option (List String) → List String → Option (List String)
  | acc, [] => acc
  | acc, g :: rest =>
    match alookup g postings with
    | none => none
    | some ids =>
      let cur := match acc with
        | none => ids
        | some cs => intersectSets cs ids
      if cur.length = 0 then none else candidateLoop postings (some cur) rest

/-- The candidate stage of performSearch: the short-query guard, the trigram
generation, and the posting intersection; none models returning no results. -/
def searchCandidates (prims : JsPrims) (gramsIndex : List (String × List String))
    (query : String) : Option (List String) :=
  let normalized := normalizeSearchText prims query
  if normalized.data.length < 3 then none
  else
    match buildTrigrams prims query with
    | [] => none
    | g :: rest => candidateLoop (buildPostings gramsIndex) none (g :: rest)

/-- Summary entry of a SearchBundle (title and last message time). -/
structure SummaryInfo where
  title : String
  last_message_time : Nat
deriving Repr, DecidableEq

/-- SearchBundle of src/types/search.ts: the persisted search index. -/
structure SearchBundle where
  grams : List (String × List String)
  linesByConversation : List (String × List SearchLine)
  summaryMap : List (String × SummaryInfo)

/-- Snippet of a SearchHit: text around the match and two context lines on
each side of the matched line inside its block. -/
structure SnippetParts where
  before : String
  matchText : String
  after : String
  contextBefore : List String
  contextAfter : List String
deriving Repr, DecidableEq

/-- SearchHit of src/types/search.ts. -/
structure SearchHit where
  conversationId : String
  conversationTitle : String
  conversationTime : Option Nat
  messageId : String
  blockIndex : Nat
  lineNo : Nat
  snippet : SnippetParts
deriving Repr, DecidableEq

/-- Insert a line into a lineNo-sorted list, after equal keys (stable). -/
def insertByLineNo (x : SearchLine) : List SearchLine → List SearchLine
  | [] => [x]
  | y :: t => if y.loc.lineNo ≤ x.loc.lineNo then y :: insertByLineNo x t else x :: y :: t

/-- Stable ascending sort by lineNo (the JS sort of buildIndexes). -/
def sortByLineNo : List SearchLine → List SearchLine
  | [] => []
  | x :: t => insertByLineNo x (sortByLineNo t)

/-- blockKey of the search worker. -/
def blockKey (line : SearchLine) : String :=
  line.loc.conversationId ++ "|" ++ line.loc.messageId ++ "|" ++ natRepr line.loc.blockIndex

/-- The per-conversation line buckets of buildIndexes, sorted by lineNo. -/
def lineBucketsOf (bundle : SearchBundle) : List (String × List SearchLine) :=
  bundle.linesByConversation.map (fun e => (e.1, sortByLineNo e.2))

/-- The block bucket a line falls into (blockBuckets of buildIndexes): every
indexed line sharing its block key, sorted by lineNo. -/
def blockLinesOf (bundle : SearchBundle) (line : SearchLine) : List SearchLine :=
  sortByLineNo (((bundle.linesByConversation.map Prod.snd).flatten).filter
    (fun e => decide (blockKey e = blockKey line)))

/-- JS String.prototype.indexOf on character lists: first index where the
needle occurs, none when it does not (JS returns -1). -/
def listIndexOf? (needle : List Char) : List Char → Option Nat
  | [] => if listIsPrefix needle [] then some 0 else none
  | c :: t =>
    if listIsPrefix needle (c :: t) then some 0
    else (listIndexOf? needle t).map (fun n => n + 1)

/-- buildSnippet of the search worker: the matched line cut around the match,
with up to two block lines of context before and after. -/
def workerSnippet (bundle : SearchBundle) (line : SearchLine) (start len : Nat) :
    SnippetParts :=
  let block := blockLinesOf bundle line
  let idx? := block.findIdx? (fun entry => entry.loc.lineNo == line.loc.lineNo)
  { before := String.mk (line.text.data.take start)
    matchText := String.mk ((line.text.data.drop start).take len)
    after := String.mk (line.text.data.drop (start + len))
    contextBefore :=
      match idx? with
      | some i => if 0 < i then ((block.drop (i - 2)).take (i - (i - 2))).map (fun e => e.text)
                  else []
      | none => []
    contextAfter :=
      match idx? with
      | some i => ((block.drop (i + 1)).take 2).map (fun e => e.text)
      | none => (block.take 2).map (fun e => e.text) }

/-- One line of the scan loop of performSearch: keep the hit when the lowered
needle occurs in the lowered line text and the limit is not yet reached. -/
def scanLine (prims : JsPrims) (bundle : SearchBundle) (loweredNeedle : List Char)
    (rawLen limit : Nat) (cid : String) (acc : List SearchHit) (line : SearchLine) :
    List SearchHit :=
  if limit ≤ acc.length then acc
  else
    match listIndexOf? loweredNeedle (prims.toLocaleLower line.text).data with
    | none => acc
    | some idx =>
      acc ++ [{ conversationId := cid
                conversationTitle :=
                  match alookup cid bundle.summaryMap with
                  | some s => s.title
                  | none => "Conversation"
                conversationTime := (alookup cid bundle.summaryMap).map
                  (fun s => s.last_message_time)
                messageId := line.loc.messageId
                blockIndex := line.loc.blockIndex
                lineNo := line.loc.lineNo
                snippet := workerSnippet bundle line idx rawLen }]

/-- One candidate conversation of the scan loop of performSearch. -/
def scanConversation (prims : JsPrims) (bundle : SearchBundle)
    (loweredNeedle : List Char) (rawLen limit : Nat) (acc : List SearchHit)
    (cid : String) : List SearchHit :=
  if limit ≤ acc.length then acc
  else ((alookup cid (lineBucketsOf bundle)).getD []).foldl
    (scanLine prims bundle loweredNeedle rawLen limit cid) acc

/-- Embeds performSearch of the search worker: candidate selection by trigram
posting intersection, then the per-line needle scan over the candidates. -/
def performSearch (prims : JsPrims) (bundle : SearchBundle) (query : String)
    (limit : Nat) : List SearchHit :=
  match searchCandidates prims bundle.grams query with
  | none => []
  | some candidateIds =>
    let rawNeedle := String.mk (jsTrim query.data)
    let loweredNeedle := (prims.toLocaleLower rawNeedle).data
    (candidateIds.foldl
      (scanConversation prims bundle loweredNeedle rawNeedle.data.length limit) []).take limit

/-! ## Archive-level error handling (parseExportZips of the browser importer
and loadZipArchive / importDatasets of the server importer) -/

/-- One input archive of a batch, at the boundary the two importers share:
unreadable stands for bytes unzipSync throws on, readable for a decompressed
archive projected to the raw conversations its entries yield (none when it
holds neither an embedded graph nor a usable conversations.json — the
extraction itself goes through JSON.parse and HTML scraping and is modelled
by its outcome). -/
inductive Archive where
  | unreadable : Archive
  | readable : List RawConversation → Archive

/-- The console warning of parseExportZips for an archive unzipSync rejects. -/
def unzipWarning : String := "Failed to unzip"

/-- The console warning of parseExportZips for an archive with no
conversation data. -/
def missingWarning : String := "ZIP missing conversation data, skipping"

/-- The error loadZipArchive throws for an archive unzipSync rejects. -/
def serverUnzipError : String := "Failed to read ZIP archive"

/-- The error loadZipArchive throws for an archive with neither chat.html nor
conversations.json data. -/
def serverMissingError : String := "missing chat.html and conversations.json"

/-- The archive loop of parseExportZips (browser), projected to which raw
conversations reach the per-conversation conversion loop and which warnings
are emitted: an unreadable or conversation-less archive adds a warning and
the loop continues with the rest of the batch. The per-conversation work is
modelled separately (convertRawConversation, shouldReplace, upsertStep). -/
def parseZips : List Archive → List RawConversation × List String
  | [] => ([], [])
  | Archive.unreadable :: rest =>
    let r := parseZips rest
    (r.1, unzipWarning :: r.2)
  | Archive.readable convs :: rest =>
    if convs.length = 0 then
      let r := parseZips rest
      (r.1, missingWarning :: r.2)
    else
      let r := parseZips rest
      (convs ++ r.1, r.2)

/-- Embeds loadZipArchive of scripts/shared/datasetImporter.ts at the same
boundary: an unreadable archive and an archive without conversation data both
throw. -/
def loadZipArchive (a : Archive) : Except String (List RawConversation) :=
  match a with
  | Archive.unreadable => Except.error serverUnzipError
  | Archive.readable convs =>
    if convs.length = 0 then Except.error serverMissingError
    else Except.ok convs

/-- The source loop of importDatasets (server), projected the same way:
loadZipArchive is awaited with no try/catch, so its error rejects the
whole import run and no later archive of the batch is processed. -/
def importArchives : List Archive → Except String (List RawConversation)
  | [] => Except.ok []
  | a :: rest =>
    match loadZipArchive a with
    | Except.error e => Except.error e
    | Except.ok convs =>
      match importArchives rest with
      | Except.error e => Except.error e
      | Except.ok more => Except.ok (convs ++ more)

/-! # Theorems -/

/-! ## Association list lemmas -/

theorem alookup_aset_self {β : Type} (k : String) (v : β) (l : List (String × β)) :
    alookup k (aset k v l) = some v := by
  induction l with
  | nil => simp [aset, alookup]
  | cons e rest ih =>
    obtain ⟨k', v'⟩ := e
    by_cases h : k' = k
    · simp [aset, h, alookup]
    · simp [aset, h, alookup, ih]

theorem alookup_aset_ne {β : Type} (k j : String) (v : β) (l : List (String × β))
    (hne : k ≠ j) : alookup j (aset k v l) = alookup j l := by
  have hjk : ¬ k = j := hne
  induction l with
  | nil => simp [aset, alookup, hjk]
  | cons e rest ih =>
    obtain ⟨k', v'⟩ := e
    by_cases h : k' = k
    · subst h
      simp [aset, alookup, hjk, ih]
    · simp [aset, alookup, h, ih]

theorem akeys_aset_absent {β : Type} (k : String) (v : β) (l : List (String × β))
    (h : alookup k l = none) : akeys (aset k v l) = akeys l ++ [k] := by
  induction l with
  | nil => simp [aset, akeys]
  | cons e rest ih =>
    obtain ⟨k', v'⟩ := e
    by_cases hk : k' = k
    · simp [alookup, hk] at h
    · simp [alookup, hk] at h
      simp [aset, hk, akeys] at ih ⊢
      exact ih h

theorem akeys_aset_present {β : Type} (k : String) (v : β) (l : List (String × β))
    (h : alookup k l ≠ none) : akeys (aset k v l) = akeys l := by
  induction l with
  | nil => simp [alookup] at h
  | cons e rest ih =>
    obtain ⟨k', v'⟩ := e
    by_cases hk : k' = k
    · simp [aset, hk, akeys]
    · simp [alookup, hk] at h
      simp [aset, hk, akeys] at ih ⊢
      exact ih h

theorem length_aset_absent {β : Type} (k : String) (v : β) (l : List (String × β))
    (h : alookup k l = none) : (aset k v l).length = l.length + 1 := by
  have := akeys_aset_absent k v l h
  have h1 : (akeys (aset k v l)).length = (akeys l ++ [k]).length := by rw [this]
  simpa [akeys] using h1

theorem alookup_none_iff_not_mem_akeys {β : Type} (k : String) (l : List (String × β)) :
    alookup k l = none ↔ k ∉ akeys l := by
  induction l with
  | nil => simp [alookup, akeys]
  | cons e rest ih =>
    obtain ⟨k', v'⟩ := e
    by_cases hk : k' = k
    · simp [alookup, hk, akeys]
    · simp [alookup, hk, akeys, ih]
      intro h
      exact fun he => hk he.symm

theorem nodup_akeys_aset {β : Type} (k : String) (v : β) (l : List (String × β))
    (h : (akeys l).Nodup) : (akeys (aset k v l)).Nodup := by
  by_cases hmem : alookup k l = none
  · rw [akeys_aset_absent k v l hmem]
    have hk : k ∉ akeys l := (alookup_none_iff_not_mem_akeys k l).mp hmem
    simp [List.nodup_append, h, hk]
  · rw [akeys_aset_present k v l hmem]
    exact h

theorem mem_akeys_aset {β : Type} (k j : String) (v : β) (l : List (String × β)) :
    j ∈ akeys (aset k v l) ↔ j ∈ akeys l ∨ j = k := by
  induction l with
  | nil => simp [aset, akeys]
  | cons e rest ih =>
    obtain ⟨k', v'⟩ := e
    by_cases hk : k' = k
    · subst hk
      simp [aset, akeys]
      tauto
    · simp [aset, hk, akeys] at ih ⊢
      tauto

/-! ## Decimal digit lemmas -/

theorem digitVal_digitChar (d : Nat) (h : d < 10) : digitVal (digitChar d) = d := by
  interval_cases d <;> rfl

theorem isDigit_digitChar (d : Nat) : (digitChar d).isDigit = true := by
  rcases d with _ | _ | _ | _ | _ | _ | _ | _ | _ | d <;> rfl

theorem natToDigits_ne_nil (n : Nat) : natToDigits n ≠ [] := by
  rw [natToDigits]
  split <;> simp

theorem natToDigits_all_digits (n : Nat) : ∀ c ∈ natToDigits n, c.isDigit = true := by
  induction n using Nat.strong_induction_on with
  | _ n ih =>
    rw [natToDigits]
    split
    · intro c hc
      simp at hc
      subst hc
      exact isDigit_digitChar n
    · intro c hc
      simp at hc
      rcases hc with hc | hc
      · exact ih (n / 10) (Nat.div_lt_self (by omega) (by omega)) c hc
      · subst hc
        exact isDigit_digitChar (n % 10)

theorem digitsToNat_append_one (ds : List Char) (c : Char) :
    digitsToNat (ds ++ [c]) = digitsToNat ds * 10 + digitVal c := by
  simp [digitsToNat, List.foldl_append]

theorem digitsToNat_natToDigits (n : Nat) : digitsToNat (natToDigits n) = n := by
  induction n using Nat.strong_induction_on with
  | _ n ih =>
    rw [natToDigits]
    split
    · rename_i h
      simp [digitsToNat, digitVal_digitChar n h]
    · rename_i h
      rw [digitsToNat_append_one,
        ih (n / 10) (Nat.div_lt_self (by omega) (by omega)),
        digitVal_digitChar (n % 10) (by omega)]
      omega

/-! ## Split and join lemmas -/

theorem splitOnChar_ne_nil (sep : Char) (cs : List Char) : splitOnChar sep cs ≠ [] := by
  cases cs with
  | nil => simp [splitOnChar]
  | cons c rest =>
    simp only [splitOnChar]
    split
    · simp
    · split <;> simp

theorem not_mem_of_mem_splitOnChar (sep : Char) (cs : List Char) :
    ∀ p ∈ splitOnChar sep cs, sep ∉ p := by
  induction cs with
  | nil => simp [splitOnChar]
  | cons c rest ih =>
    intro p hp
    simp only [splitOnChar] at hp
    by_cases hc : c = sep
    · simp [hc] at hp
      rcases hp with hp | hp
      · simp [hp]
      · exact ih p hp
    · simp [hc] at hp
      rcases hr : splitOnChar sep rest with _ | ⟨h0, t0⟩
      · exact absurd hr (splitOnChar_ne_nil sep rest)
      · rw [hr] at hp
        simp at hp
        rcases hp with hp | hp
        · subst hp
          intro hmem
          simp at hmem
          rcases hmem with hmem | hmem
          · exact hc hmem.symm
          · exact ih h0 (by simp [hr]) hmem
        · exact ih p (by simp [hr, hp])

theorem mem_of_mem_splitOnChar (sep : Char) (cs : List Char) :
    ∀ p ∈ splitOnChar sep cs, ∀ c ∈ p, c ∈ cs := by
  induction cs with
  | nil => simp [splitOnChar]
  | cons c rest ih =>
    intro p hp
    simp only [splitOnChar] at hp
    by_cases hc : c = sep
    · simp [hc] at hp
      rcases hp with hp | hp
      · simp [hp]
      · intro x hx
        exact List.mem_cons_of_mem _ (ih p hp x hx)
    · simp [hc] at hp
      rcases hr : splitOnChar sep rest with _ | ⟨h0, t0⟩
      · exact absurd hr (splitOnChar_ne_nil sep rest)
      · rw [hr] at hp
        simp at hp
        rcases hp with hp | hp
        · subst hp
          intro x hx
          simp at hx
          rcases hx with hx | hx
          · simp [hx]
          · exact List.mem_cons_of_mem _ (ih h0 (by simp [hr]) x hx)
        · intro x hx
          exact List.mem_cons_of_mem _ (ih p (by simp [hr, hp]) x hx)

theorem splitOnChar_append_sep (sep : Char) (p rest : List Char) (hp : sep ∉ p) :
    splitOnChar sep (p ++ sep :: rest) = p :: splitOnChar sep rest := by
  induction p with
  | nil => simp [splitOnChar]
  | cons c cp ih =>
    have hc : c ≠ sep := by
      intro h
      exact hp (by simp [h])
    have hcp : sep ∉ cp := fun h => hp (List.mem_cons_of_mem _ h)
    simp only [List.cons_append, splitOnChar, if_neg hc, List.append_eq]
    rw [ih hcp]

theorem splitOnChar_no_sep (sep : Char) (p : List Char) (hp : sep ∉ p) :
    splitOnChar sep p = [p] := by
  induction p with
  | nil => rfl
  | cons c cp ih =>
    have hc : c ≠ sep := by
      intro h
      exact hp (by simp [h])
    have hcp : sep ∉ cp := fun h => hp (List.mem_cons_of_mem _ h)
    simp only [splitOnChar, ih hcp, hc]
    simp

theorem splitOnChar_joinWithChar (sep : Char) (ps : List (List Char)) (hne : ps ≠ [])
    (hmem : ∀ p ∈ ps, sep ∉ p) : splitOnChar sep (joinWithChar sep ps) = ps := by
  induction ps with
  | nil => exact absurd rfl hne
  | cons p rest ih =>
    cases rest with
    | nil => exact splitOnChar_no_sep sep p (hmem p (by simp))
    | cons q t =>
      have h1 : sep ∉ p := hmem p (by simp)
      have h2 : ∀ r ∈ q :: t, sep ∉ r := fun r hr => hmem r (by simp [hr])
      show splitOnChar sep (p ++ sep :: joinWithChar sep (q :: t)) = p :: q :: t
      rw [splitOnChar_append_sep sep p _ h1, ih (by simp) h2]

theorem mem_joinWithChar (sep : Char) (ps : List (List Char)) :
    ∀ c ∈ joinWithChar sep ps, c = sep ∨ ∃ p ∈ ps, c ∈ p := by
  induction ps with
  | nil => simp [joinWithChar]
  | cons p rest ih =>
    cases rest with
    | nil =>
      intro c hc
      exact Or.inr ⟨p, by simp, hc⟩
    | cons q t =>
      intro c hc
      simp only [joinWithChar] at hc
      rw [List.mem_append] at hc
      rcases hc with hc | hc
      · exact Or.inr ⟨p, by simp, hc⟩
      · rcases List.mem_cons.mp hc with hc | hc
        · exact Or.inl hc
        · rcases ih c hc with h | ⟨r, hr, hcr⟩
          · exact Or.inl h
          · exact Or.inr ⟨r, by simp [hr], hcr⟩

/-! ## Path normalization lemmas -/

theorem stringMk_data (s : String) : String.mk s.data = s := by
  cases s
  rfl

theorem backslash_not_mem_replaceBackslashes (cs : List Char) :
    '\\' ∉ replaceBackslashes cs := by
  intro h
  rcases List.mem_map.mp h with ⟨c, _, hc⟩
  by_cases hcb : c = '\\'
  · rw [if_pos hcb] at hc
    exact absurd hc (by decide)
  · rw [if_neg hcb] at hc
    exact hcb hc

theorem replaceBackslashes_id (cs : List Char) (h : '\\' ∉ cs) :
    replaceBackslashes cs = cs := by
  induction cs with
  | nil => rfl
  | cons c rest ih =>
    have hc : c ≠ '\\' := fun he => h (by simp [he])
    have hr : '\\' ∉ rest := fun hm => h (List.mem_cons_of_mem _ hm)
    show (if c = '\\' then '/' else c) :: replaceBackslashes rest = c :: rest
    rw [if_neg hc, ih hr]

theorem string_ext (a b : String) (h : a.data = b.data) : a = b := by
  cases a
  cases b
  exact congrArg String.mk h

theorem mem_stripLeadingDotSlash (cs : List Char) :
    ∀ c ∈ stripLeadingDotSlash cs, c ∈ cs := by
  intro c hc
  rcases cs with _ | ⟨a, rest⟩
  · simp [stripLeadingDotSlash] at hc
  · by_cases ha : a = '.'
    · rcases rest with _ | ⟨b, rest2⟩
      · simp [stripLeadingDotSlash, ha] at hc
      · by_cases hb : b = '/'
        · simp only [stripLeadingDotSlash, if_pos ha, if_pos hb] at hc
          simp [hc]
        · simp only [stripLeadingDotSlash, if_pos ha, if_neg hb] at hc
          simp [hc]
    · simpa [stripLeadingDotSlash, if_neg ha] using hc

theorem stripLeadingDotSlash_of_not_dot (cs : List Char)
    (h : startsWithChar '.' cs = false) : stripLeadingDotSlash cs = cs := by
  rcases cs with _ | ⟨a, rest⟩
  · rfl
  · have ha : a ≠ '.' := by
      intro he
      simp [startsWithChar, he] at h
    simp [stripLeadingDotSlash, ha]

theorem dropWhile_of_head_not (p : Char → Bool) (cs : List Char)
    (h : ∀ c ∈ cs.take 1, p c = false) : cs.dropWhile p = cs := by
  rcases cs with _ | ⟨a, rest⟩
  · rfl
  · have := h a (by simp)
    simp [List.dropWhile, this]

theorem normSegStep_good (acc : List (List Char)) (part : List Char)
    (hacc : ∀ q ∈ acc, GoodSeg q) (hp : '/' ∉ part ∧ '\\' ∉ part) :
    ∀ q ∈ normSegStep acc part, GoodSeg q := by
  unfold normSegStep
  split_ifs with h1 h2
  · exact hacc
  · intro q hq
    exact hacc q (List.dropLast_subset _ hq)
  · intro q hq
    rcases List.mem_append.mp hq with hq | hq
    · exact hacc q hq
    · simp at hq
      subst hq
      push_neg at h1
      exact ⟨h1.1, h1.2, h2, hp.1, hp.2⟩

theorem foldl_normSegStep_good (parts : List (List Char)) :
    ∀ acc, (∀ q ∈ acc, GoodSeg q) → (∀ p ∈ parts, '/' ∉ p ∧ '\\' ∉ p) →
    ∀ q ∈ parts.foldl normSegStep acc, GoodSeg q := by
  induction parts with
  | nil =>
    intro acc hacc _ q hq
    exact hacc q (by simpa using hq)
  | cons p rest ih =>
    intro acc hacc hp
    simp only [List.foldl_cons]
    exact ih (normSegStep acc p) (normSegStep_good acc p hacc (hp p (by simp)))
      (fun r hr => hp r (by simp [hr]))

theorem normalizeSegs_good (parts : List (List Char))
    (hp : ∀ p ∈ parts, '/' ∉ p ∧ '\\' ∉ p) :
    ∀ q ∈ normalizeSegs parts, GoodSeg q :=
  foldl_normSegStep_good parts [] (by simp) hp

theorem foldl_normSegStep_of_good (qs : List (List Char)) :
    ∀ acc, (∀ q ∈ qs, GoodSeg q) → qs.foldl normSegStep acc = acc ++ qs := by
  induction qs with
  | nil => simp
  | cons q rest ih =>
    intro acc hq
    have hg := hq q (by simp)
    have hstep : normSegStep acc q = acc ++ [q] := by
      unfold normSegStep
      rw [if_neg, if_neg hg.2.2.1]
      intro h
      rcases h with h | h
      · exact hg.1 h
      · exact hg.2.1 h
    simp only [List.foldl_cons, hstep]
    rw [ih _ (fun r hr => hq r (by simp [hr]))]
    simp

theorem normalizeSegs_of_good (qs : List (List Char)) (hq : ∀ q ∈ qs, GoodSeg q) :
    normalizeSegs qs = qs := by
  unfold normalizeSegs
  rw [foldl_normSegStep_of_good qs [] hq]
  simp

theorem startsWithChar_append (c : Char) (p q : List Char) (hp : p ≠ []) :
    startsWithChar c (p ++ q) = startsWithChar c p := by
  cases p with
  | nil => exact absurd rfl hp
  | cons a t => rfl

theorem normalizePath_data (input : String) :
    (normalizePath input).data =
      joinWithChar '/' (normalizeSegs (splitOnChar '/'
        ((stripLeadingDotSlash (replaceBackslashes input.data)).dropWhile
          (fun c => c = '/')))) := rfl

theorem normalizePath_parts_good (input : String) :
    ∀ q ∈ normalizeSegs (splitOnChar '/'
      ((stripLeadingDotSlash (replaceBackslashes input.data)).dropWhile
        (fun c => c = '/'))), GoodSeg q := by
  apply normalizeSegs_good
  intro p hp
  constructor
  · exact not_mem_of_mem_splitOnChar '/' _ p hp
  · intro hmem
    have hsub := mem_of_mem_splitOnChar '/' _ p hp '\\' hmem
    have hdrop : '\\' ∈ stripLeadingDotSlash (replaceBackslashes input.data) :=
      (List.dropWhile_sublist _).subset hsub
    have hstrip : '\\' ∈ replaceBackslashes input.data :=
      mem_stripLeadingDotSlash _ '\\' hdrop
    exact backslash_not_mem_replaceBackslashes input.data hstrip

theorem normalizePath_no_backslash (input : String) :
    '\\' ∉ (normalizePath input).data := by
  rw [normalizePath_data]
  intro h
  rcases mem_joinWithChar '/' _ '\\' h with h | ⟨p, hp, hmem⟩
  · exact absurd h (by simp_all)
  · exact (normalizePath_parts_good input p hp).2.2.2.2 hmem

theorem normalizePath_not_abs (input : String) :
    startsWithChar '/' (normalizePath input).data = false := by
  rw [normalizePath_data]
  rcases hqs : normalizeSegs (splitOnChar '/'
      ((stripLeadingDotSlash (replaceBackslashes input.data)).dropWhile
        (fun c => c = '/'))) with _ | ⟨p, rest⟩
  · rfl
  · have hg : GoodSeg p := by
      apply normalizePath_parts_good input
      rw [hqs]
      simp
    have hjoin : joinWithChar '/' (p :: rest) = p ++
        (match rest with
          | [] => ([] : List Char)
          | _ :: _ => '/' :: joinWithChar '/' rest) := by
      cases rest <;> simp [joinWithChar]
    rw [hjoin, startsWithChar_append '/' p _ hg.1]
    rcases hp : p with _ | ⟨a, t⟩
    · exact absurd hp hg.1
    · have : a ≠ '/' := by
        intro he
        exact hg.2.2.2.1 (by simp [hp, he])
      simp [startsWithChar, this]

theorem normalizePath_segs_clean (input : String) (hne : normalizePath input ≠ "") :
    ∀ seg ∈ splitOnChar '/' (normalizePath input).data,
      seg ≠ [] ∧ seg ≠ ['.'] ∧ seg ≠ ['.', '.'] := by
  intro seg hseg
  rcases hqs : normalizeSegs (splitOnChar '/'
      ((stripLeadingDotSlash (replaceBackslashes input.data)).dropWhile
        (fun c => c = '/'))) with _ | ⟨p, rest⟩
  · exfalso
    apply hne
    have : (normalizePath input).data = [] := by
      rw [normalizePath_data, hqs]
      rfl
    have := congrArg String.mk this
    rwa [stringMk_data] at this
  · have hgood : ∀ q ∈ p :: rest, GoodSeg q := by
      intro q hq
      apply normalizePath_parts_good input
      rw [hqs]
      exact hq
    have hsplit : splitOnChar '/' (normalizePath input).data = p :: rest := by
      rw [normalizePath_data, hqs]
      exact splitOnChar_joinWithChar '/' (p :: rest) (by simp)
        (fun q hq => (hgood q hq).2.2.2.1)
    rw [hsplit] at hseg
    have hg := hgood seg hseg
    exact ⟨hg.1, hg.2.1, hg.2.2.1⟩

theorem normalizePath_idem_of_not_dot (s : String)
    (h : startsWithChar '.' (normalizePath s).data = false) :
    normalizePath (normalizePath s) = normalizePath s := by
  by_cases hnil : (normalizePath s).data = []
  · have hs : normalizePath s = "" := by
      have := congrArg String.mk hnil
      rwa [stringMk_data] at this
    rw [hs]
    rfl
  · rcases hqs : normalizeSegs (splitOnChar '/'
        ((stripLeadingDotSlash (replaceBackslashes s.data)).dropWhile
          (fun c => c = '/'))) with _ | ⟨p, rest⟩
    · exfalso
      apply hnil
      rw [normalizePath_data, hqs]
      rfl
    · have hgood : ∀ q ∈ p :: rest, GoodSeg q := by
        intro q hq
        apply normalizePath_parts_good s
        rw [hqs]
        exact hq
      have hdata : (normalizePath s).data = joinWithChar '/' (p :: rest) := by
        rw [normalizePath_data, hqs]
      have hhead : ∀ c ∈ (normalizePath s).data.take 1,
          (fun c => decide (c = '/')) c = false := by
        intro c hc
        have hs := normalizePath_not_abs s
        rcases hd : (normalizePath s).data with _ | ⟨a, t⟩
        · rw [hd] at hc
          simp at hc
        · rw [hd] at hc hs
          simp at hc
          subst hc
          simp [startsWithChar] at hs
          simp [hs]
      apply string_ext
      rw [normalizePath_data (normalizePath s)]
      rw [replaceBackslashes_id _ (normalizePath_no_backslash s),
        stripLeadingDotSlash_of_not_dot _ h,
        dropWhile_of_head_not _ _ hhead]
      rw [hdata, splitOnChar_joinWithChar '/' (p :: rest) (by simp)
        (fun q hq => (hgood q hq).2.2.2.1)]
      rw [normalizeSegs_of_good _ hgood]

/-! ## Claim C10: normalizePath idempotence and output cleanliness -/

/-- Claim C10 counterexample: the input string dot dot b slash c is accepted by
the validator, normalizes to a path whose first segment begins with a dot, and
a second normalizePath application strips that dot, so normalizePath is not
idempotent on it. -/
theorem normalizePath_idem_cex :
    isSafeRelativePath "..b/c" = true ∧
    normalizePath (normalizePath "..b/c") ≠ normalizePath "..b/c" := by
  constructor
  · decide
  · decide

/-- Claim C10, amended: for every input, the output of normalizePath contains
no backslash, does not begin with a slash, and when nonempty has no segment
equal to the empty string, a dot, or dot-dot; normalizePath is idempotent on
every input whose normalized output does not begin with a dot (a second
application strips one leading dot otherwise); and every validator-accepted
path normalizes to a nonempty string. -/
theorem normalizePath_cleanliness (s : String) :
    ('\\' ∉ (normalizePath s).data) ∧
    startsWithChar '/' (normalizePath s).data = false ∧
    (normalizePath s ≠ "" → ∀ seg ∈ splitOnChar '/' (normalizePath s).data,
      seg ≠ [] ∧ seg ≠ ['.'] ∧ seg ≠ ['.', '.']) ∧
    (startsWithChar '.' (normalizePath s).data = false →
      normalizePath (normalizePath s) = normalizePath s) ∧
    (isSafeRelativePath s = true → normalizePath s ≠ "") := by
  refine ⟨normalizePath_no_backslash s, normalizePath_not_abs s,
    normalizePath_segs_clean s, normalizePath_idem_of_not_dot s, ?_⟩
  intro hsafe
  unfold isSafeRelativePath at hsafe
  split_ifs at hsafe
  · intro hempty
    rw [decide_eq_true_eq] at hsafe
    rw [hempty] at hsafe
    simp [String.length] at hsafe

/-- Claim C10 witness: the amended theorem applied at the concrete input a
slash b, whose normalized form starts with the letter a. -/
theorem normalizePath_cleanliness_witness :
    normalizePath (normalizePath "a/b") = normalizePath "a/b" ∧ normalizePath "a/b" ≠ "" := by
  exact ⟨(normalizePath_cleanliness "a/b").2.2.2.1 (by decide),
    (normalizePath_cleanliness "a/b").2.2.2.2 (by decide)⟩

/-! ## Merge precedence lemmas -/

theorem shouldReplace_eq_specStrictlyNewer (current incoming : ComparisonPayload) :
    shouldReplace current incoming = specStrictlyNewer incoming current := by
  unfold shouldReplace specStrictlyNewer
  split_ifs <;> try rfl
  all_goals apply Eq.symm
  all_goals first
    | (exfalso; omega)
    | (rw [decide_eq_true_eq]; omega)
    | (rw [decide_eq_false_iff_not]; omega)

theorem isNewerSummary_eq_newerNoOrderTiebreak (incoming e : ConversationSummary) :
    isNewerSummary incoming (some e) = newerNoOrderTiebreak incoming e := by
  show (if incoming.last_message_time > e.last_message_time then true
    else if incoming.last_message_time = e.last_message_time ∧
        incoming.mapping_node_count.getD 0 > e.mapping_node_count.getD 0 then true
    else false) = newerNoOrderTiebreak incoming e
  unfold newerNoOrderTiebreak
  split_ifs with h1 h2
  · simp [h1]
  · simp [h2.1, h2.2]
  · rcases em (incoming.last_message_time = e.last_message_time) with he | he
    · have hn : ¬ incoming.mapping_node_count.getD 0 > e.mapping_node_count.getD 0 :=
        fun hgt => h2 ⟨he, hgt⟩
      simp [h1, he, hn]
    · simp [h1, he]

/-! ## Claim C3: asset-path validator rejections and destination containment -/

theorem isSafeRelativePath_false_of (input : String)
    (h : input.data = [] ∨ '\x00' ∈ input.data ∨ '\\' ∈ input.data ∨
      startsWithChar '/' input.data = true ∨ hasDriveLetter input.data = true ∨
      pathHasTraversal input = true) :
    isSafeRelativePath input = false := by
  unfold isSafeRelativePath
  split_ifs with h1 h2 h3 h4 h5 h6 <;> try rfl
  exfalso
  rcases h with h | h | h | h | h | h
  · exact h1 h
  · exact h2 h
  · exact h3 h
  · exact h4 h
  · exact h5 h
  · exact h6 h

theorem writeAssetPaths_under (root : String) (keys : List String) (p : String)
    (hp : p ∈ writeAssetPaths root keys) : isUnderDir root p := by
  unfold writeAssetPaths at hp
  rcases List.mem_filterMap.mp hp with ⟨key, _, hkey⟩
  by_cases hsafe : isSafeRelativePath key
  · rw [if_pos hsafe] at hkey
    unfold safeJoinUnder at hkey
    by_cases hg : resolvePosix root key = root ∨
        strIsPrefix (if endsWithSlash root then root else root ++ "/") (resolvePosix root key)
    · simp only [if_pos hg] at hkey
      injection hkey with hkey
      subst hkey
      unfold isUnderDir
      rcases hg with hg | hg
      · exact Or.inl hg
      · exact Or.inr hg
    · simp only [if_neg hg] at hkey
      exact absurd hkey (by simp)
  · rw [if_neg hsafe] at hkey
    exact absurd hkey (by simp)

/-- Claim C3: the asset-path validator rejects the empty string, strings with
an embedded null byte, strings with a backslash, absolute paths, drive-letter
paths, and any path with a dot-dot segment; and every destination file path
produced by the dataset-writing asset loop lies at or under the destination
assets root, so a crafted traversal key such as dot dot slash escape.png
writes nothing at all. -/
theorem assetPathSafety :
    (∀ input : String, input.data = [] → isSafeRelativePath input = false) ∧
    (∀ input : String, '\x00' ∈ input.data → isSafeRelativePath input = false) ∧
    (∀ input : String, '\\' ∈ input.data → isSafeRelativePath input = false) ∧
    (∀ input : String, startsWithChar '/' input.data = true →
      isSafeRelativePath input = false) ∧
    (∀ (input : String) (c : Char) (rest : List Char),
      input.data = c :: ':' :: rest → c.isAlpha = true → isSafeRelativePath input = false) ∧
    (∀ (input : String) (seg : List Char), seg ∈ splitOnChar '/' input.data →
      seg = ['.', '.'] → isSafeRelativePath input = false) ∧
    (∀ (root : String) (keys : List String) (p : String), p ∈ writeAssetPaths root keys →
      isUnderDir root p) ∧
    writeAssetPaths "/data/assets" ["../escape.png"] = [] := by
  refine ⟨?_, ?_, ?_, ?_, ?_, ?_, writeAssetPaths_under, by decide⟩
  · intro input h
    exact isSafeRelativePath_false_of input (Or.inl h)
  · intro input h
    exact isSafeRelativePath_false_of input (Or.inr (Or.inl h))
  · intro input h
    exact isSafeRelativePath_false_of input (Or.inr (Or.inr (Or.inl h)))
  · intro input h
    exact isSafeRelativePath_false_of input (Or.inr (Or.inr (Or.inr (Or.inl h))))
  · intro input c rest hdata halpha
    apply isSafeRelativePath_false_of input
    refine Or.inr (Or.inr (Or.inr (Or.inr (Or.inl ?_))))
    rw [hdata]
    show hasDriveLetter (c :: ':' :: rest) = true
    simpa [hasDriveLetter] using halpha
  · intro input seg hmem hseg
    apply isSafeRelativePath_false_of input
    refine Or.inr (Or.inr (Or.inr (Or.inr (Or.inr ?_))))
    unfold pathHasTraversal
    rw [List.any_eq_true]
    exact ⟨seg, hmem, by simp [hseg]⟩

/-- Claim C3 witness: the safety theorem applied at concrete inputs: a
backslash path and a traversal path are rejected, and the one concrete
destination path written for a clean key stays under the assets root. -/
theorem assetPathSafety_witness :
    isSafeRelativePath "a\\b" = false ∧
    isSafeRelativePath "a/../b" = false ∧
    isUnderDir "/data/assets" "/data/assets/img.png" := by
  refine ⟨?_, ?_, ?_⟩
  · exact assetPathSafety.2.2.1 "a\\b" (by decide)
  · exact assetPathSafety.2.2.2.2.2.1 "a/../b" ['.', '.'] (by decide) rfl
  · exact assetPathSafety.2.2.2.2.2.2.1 "/data/assets" ["img.png"] "/data/assets/img.png"
      (by decide)

/-! ## Filter counting lemmas -/

theorem filter_length_mono {α : Type} (p q : α → Bool) (l : List α)
    (h : ∀ a, p a = true → q a = true) :
    (l.filter p).length ≤ (l.filter q).length := by
  induction l with
  | nil => simp
  | cons a t ih =>
    by_cases hp : p a = true
    · have hq := h a hp
      simp only [List.filter_cons, hp, hq, if_pos]
      simpa using ih
    · have hp2 : p a = false := by
        cases hpa : p a
        · rfl
        · exact absurd hpa hp
      by_cases hq : q a = true
      · simp only [List.filter_cons, hp2, hq]
        simp only [Bool.false_eq_true, if_false, if_pos]
        simp only [List.length_cons]
        omega
      · have hq2 : q a = false := by
          cases hqa : q a
          · rfl
          · exact absurd hqa hq
        simp only [List.filter_cons, hp2, hq2, Bool.false_eq_true, if_false]
        exact ih

theorem filter_length_strict {α : Type} (p q : α → Bool) (l : List α)
    (hmono : ∀ a, p a = true → q a = true) (x : α) (hx : x ∈ l)
    (hqx : q x = true) (hpx : p x = false) :
    (l.filter p).length < (l.filter q).length := by
  induction l with
  | nil => simp at hx
  | cons a t ih =>
    rcases List.mem_cons.mp hx with rfl | hx2
    · have hle : (t.filter p).length ≤ (t.filter q).length := filter_length_mono p q t hmono
      simp only [List.filter_cons, hpx, hqx, Bool.false_eq_true, if_false, if_pos,
        List.length_cons]
      omega
    · by_cases hpa : p a = true
      · have hqa := hmono a hpa
        simp only [List.filter_cons, hpa, hqa, if_pos, List.length_cons]
        have := ih hx2
        omega
      · have hpa2 : p a = false := by
          cases hh : p a
          · rfl
          · exact absurd hh hpa
        by_cases hqa : q a = true
        · simp only [List.filter_cons, hpa2, hqa, Bool.false_eq_true, if_false, if_pos,
            List.length_cons]
          have := ih hx2
          omega
        · have hqa2 : q a = false := by
            cases hh : q a
            · rfl
            · exact absurd hh hqa
          simp only [List.filter_cons, hpa2, hqa2, Bool.false_eq_true, if_false]
          exact ih hx2

/-! ## Traversal lemmas -/

theorem alookup_mem {β : Type} (k : String) (l : List (String × β)) (v : β)
    (h : alookup k l = some v) : v ∈ l.map Prod.snd := by
  induction l with
  | nil => simp [alookup] at h
  | cons e rest ih =>
    obtain ⟨k2, v2⟩ := e
    by_cases hk : k2 = k
    · simp [alookup, hk] at h
      simp [h]
    · simp [alookup, hk] at h
      simp [ih h]

theorem parentOf_mem (nodes : List (String × RawNode)) (n m : RawNode)
    (h : parentOf nodes n = some m) : m ∈ nodes.map Prod.snd := by
  rcases hp : n.parent with _ | p
  · simp [parentOf, hp] at h
  · simp only [parentOf, hp] at h
    by_cases hpe : p = ""
    · simp [hpe] at h
    · rw [if_pos hpe] at h
      exact alookup_mem p nodes m h

theorem walkLoop_none (nodes : List (String × RawNode)) (fuel : Nat)
    (visited : List String) : walkLoop nodes fuel none visited = [] := by
  cases fuel <;> rfl

theorem walkLoop_fuel_free (nodes : List (String × RawNode)) :
    ∀ fuel1 fuel2 (cursor : Option RawNode) (visited : List String),
      (∀ n, cursor = some n → n ∈ nodes.map Prod.snd) →
      ((nodes.map (fun e => e.2.id)).dedup.filter
        (fun i => decide (i ∉ visited))).length < fuel1 →
      ((nodes.map (fun e => e.2.id)).dedup.filter
        (fun i => decide (i ∉ visited))).length < fuel2 →
      walkLoop nodes fuel1 cursor visited = walkLoop nodes fuel2 cursor visited := by
  intro fuel1
  induction fuel1 with
  | zero => intro fuel2 cursor visited _ h1 _; omega
  | succ f ih =>
    intro fuel2 cursor visited hinv h1 h2
    rcases fuel2 with _ | g
    · omega
    · rcases cursor with _ | n
      · rw [walkLoop_none, walkLoop_none]
      · show walkLoop nodes (f + 1) (some n) visited = walkLoop nodes (g + 1) (some n) visited
        by_cases hmem : n.id ∈ visited
        · simp only [walkLoop, if_pos hmem]
        · simp only [walkLoop, if_neg hmem]
          have hval : n ∈ nodes.map Prod.snd := hinv n rfl
          have hdec : ((nodes.map (fun e => e.2.id)).dedup.filter
              (fun i => decide (i ∉ n.id :: visited))).length <
              ((nodes.map (fun e => e.2.id)).dedup.filter
                (fun i => decide (i ∉ visited))).length := by
            have hmono2 : ∀ a : String, decide (a ∉ n.id :: visited) = true →
                decide (a ∉ visited) = true := by
              intro a ha
              simp only [decide_eq_true_eq] at ha ⊢
              intro hav
              exact ha (List.mem_cons_of_mem _ hav)
            have hxmem : n.id ∈ (nodes.map (fun e => e.2.id)).dedup := by
              rw [List.mem_dedup]
              have h3 : n.id ∈ (nodes.map Prod.snd).map (fun m => m.id) :=
                List.mem_map_of_mem _ hval
              simpa [List.map_map] using h3
            exact filter_length_strict _ _ _ hmono2 n.id hxmem
              (by simp only [decide_eq_true_eq]; exact hmem) (by simp)
          rw [ih f (parentOf nodes n) (n.id :: visited)
            (fun m hm => parentOf_mem nodes n m hm) (by omega) (by omega)]
          rw [ih g (parentOf nodes n) (n.id :: visited)
            (fun m hm => parentOf_mem nodes n m hm) (by omega) (by omega)]

theorem walkPath_fuel_free (nodes : List (String × RawNode)) (current : String)
    (extra : Nat) :
    walkLoop nodes (nodes.length + 1 + extra) (alookup current nodes) [] =
      walkPath nodes current := by
  unfold walkPath
  have hbound : ((nodes.map (fun e => e.2.id)).dedup.filter
      (fun i => decide (i ∉ ([] : List String)))).length ≤ nodes.length := by
    calc ((nodes.map (fun e => e.2.id)).dedup.filter
        (fun i => decide (i ∉ ([] : List String)))).length
        ≤ (nodes.map (fun e => e.2.id)).dedup.length := List.length_filter_le _ _
      _ ≤ (nodes.map (fun e => e.2.id)).length := (List.dedup_sublist _).length_le
      _ = nodes.length := by simp
  apply walkLoop_fuel_free
  · intro n h
    exact alookup_mem current nodes n h
  · omega
  · omega

theorem walkLoop_ids_nodup (nodes : List (String × RawNode)) :
    ∀ (fuel : Nat) (cursor : Option RawNode) (visited : List String),
      ((walkLoop nodes fuel cursor visited).map (fun n => n.id)).Nodup ∧
      (∀ x ∈ walkLoop nodes fuel cursor visited, x.id ∉ visited) := by
  intro fuel
  induction fuel with
  | zero => intro cursor visited; simp [walkLoop]
  | succ f ih =>
    intro cursor visited
    rcases cursor with _ | n
    · simp [walkLoop]
    · by_cases hmem : n.id ∈ visited
      · simp [walkLoop, if_pos hmem]
      · simp only [walkLoop, if_neg hmem]
        obtain ⟨ihn, ihv⟩ := ih (parentOf nodes n) (n.id :: visited)
        constructor
        · simp only [List.map_cons, List.nodup_cons]
          refine ⟨?_, ihn⟩
          intro hidmem
          rcases List.mem_map.mp hidmem with ⟨x, hx, hxid⟩
          exact ihv x hx (by simp [hxid])
        · intro x hx
          rcases List.mem_cons.mp hx with rfl | hx2
          · exact hmem
          · intro hxv
            exact ihv x hx2 (List.mem_cons_of_mem _ hxv)

theorem walkLoop_mem_values (nodes : List (String × RawNode)) :
    ∀ (fuel : Nat) (cursor : Option RawNode) (visited : List String),
      (∀ n, cursor = some n → n ∈ nodes.map Prod.snd) →
      ∀ x ∈ walkLoop nodes fuel cursor visited, x ∈ nodes.map Prod.snd := by
  intro fuel
  induction fuel with
  | zero => intro cursor visited _; simp [walkLoop]
  | succ f ih =>
    intro cursor visited hinv
    rcases cursor with _ | n
    · simp [walkLoop]
    · by_cases hmem : n.id ∈ visited
      · simp [walkLoop, if_pos hmem]
      · simp only [walkLoop, if_neg hmem]
        intro x hx
        rcases List.mem_cons.mp hx with rfl | hx2
        · exact hinv x rfl
        · exact ih (parentOf nodes n) (n.id :: visited)
            (fun m hm => parentOf_mem nodes n m hm) x hx2

theorem nodup_subset_length_le (l1 l2 : List String) (h1 : l1.Nodup) (h2 : l1 ⊆ l2) :
    l1.length ≤ l2.length :=
  (h1.subperm h2).length_le

theorem walkPath_length_le (nodes : List (String × RawNode)) (current : String) :
    (walkPath nodes current).length ≤ nodes.length := by
  have hnodup := (walkLoop_ids_nodup nodes (nodes.length + 1) (alookup current nodes) []).1
  have hmem := walkLoop_mem_values nodes (nodes.length + 1) (alookup current nodes) []
    (fun n h => alookup_mem current nodes n h)
  have hsub : (walkPath nodes current).map (fun n => n.id) ⊆
      (nodes.map Prod.snd).map (fun n => n.id) := by
    intro i hi
    rcases List.mem_map.mp hi with ⟨x, hx, hxi⟩
    exact List.mem_map.mpr ⟨x, hmem x hx, hxi⟩
  have := nodup_subset_length_le _ _ hnodup hsub
  simpa using this

/-! ## Claim C9: traversal terminates and truncates silently -/

/-- Claim C9: the parent-link traversal terminates on every raw graph: fuel
beyond mapping size plus one never changes the result, each node id is
visited at most once, and the path length never exceeds the mapping size;
and on a concrete two-node parent cycle and on a concrete missing parent
reference the path is silently truncated. -/
theorem graphTraversalTerminates (nodes : List (String × RawNode)) (current : String) :
    (∀ extra, walkLoop nodes (nodes.length + 1 + extra) (alookup current nodes) [] =
      walkPath nodes current) ∧
    ((walkPath nodes current).map (fun n => n.id)).Nodup ∧
    (walkPath nodes current).length ≤ nodes.length ∧
    (walkPath [("a", ⟨"a", some "b", none, none⟩), ("b", ⟨"b", some "a", none, none⟩)]
      "a").map (fun n => n.id) = ["a", "b"] ∧
    (walkPath [("c", ⟨"c", some "zz", none, none⟩)] "c").map (fun n => n.id) = ["c"] := by
  refine ⟨fun extra => walkPath_fuel_free nodes current extra, ?_,
    walkPath_length_le nodes current, by decide, by decide⟩
  exact (walkLoop_ids_nodup nodes (nodes.length + 1) (alookup current nodes) []).1

/-! ## Chain lemmas for claim C4 -/

theorem chain_mem_values (nodes : List (String × RawNode)) :
    ∀ (chain : List RawNode) (n : RawNode), ValidChainFrom nodes n chain →
      n ∈ nodes.map Prod.snd → ∀ m ∈ chain, m ∈ nodes.map Prod.snd := by
  intro chain
  induction chain with
  | nil =>
    intro n hvalid
    exact absurd hvalid (by simp [ValidChainFrom])
  | cons m rest ih =>
    intro n hvalid hn x hx
    cases rest with
    | nil =>
      simp only [ValidChainFrom] at hvalid
      simp at hx
      rw [hx, hvalid.1]
      exact hn
    | cons m2 rest2 =>
      simp only [ValidChainFrom] at hvalid
      obtain ⟨hm, p, hp, hpne, n2, hlook, hvalid2⟩ := hvalid
      rcases List.mem_cons.mp hx with rfl | hx2
      · rw [hm]
        exact hn
      · exact ih n2 hvalid2 (alookup_mem p nodes n2 hlook) x hx2

theorem walkLoop_of_validChain (nodes : List (String × RawNode)) :
    ∀ (chain : List RawNode) (n : RawNode) (visited : List String) (fuel : Nat),
      ValidChainFrom nodes n chain →
      ((chain.map (fun m => m.id)).Nodup) →
      (∀ m ∈ chain, m.id ∉ visited) →
      chain.length ≤ fuel →
      walkLoop nodes fuel (some n) visited = chain := by
  intro chain
  induction chain with
  | nil =>
    intro n visited fuel hvalid
    exact absurd hvalid (by simp [ValidChainFrom])
  | cons m rest ih =>
    intro n visited fuel hvalid hnodup hvis hlen
    rcases fuel with _ | f
    · simp at hlen
    · have hmn : m = n := by
        cases rest with
        | nil =>
          have h2 : m = n ∧ (n.parent = none ∨ n.parent = some "") := by
            simpa only [ValidChainFrom] using hvalid
          exact h2.1
        | cons m2 rest2 =>
          have h2 : m = n ∧ ∃ p, n.parent = some p ∧ p ≠ "" ∧
              ∃ n2, alookup p nodes = some n2 ∧ ValidChainFrom nodes n2 (m2 :: rest2) := by
            simpa only [ValidChainFrom] using hvalid
          exact h2.1
      have hnv : n.id ∉ visited := by
        rw [← hmn]
        exact hvis m (by simp)
      simp only [walkLoop, if_neg hnv]
      cases rest with
      | nil =>
        have h2 : m = n ∧ (n.parent = none ∨ n.parent = some "") := by
          simpa only [ValidChainFrom] using hvalid
        have hpar : parentOf nodes n = none := by
          rcases h2.2 with hr | hr <;> simp [parentOf, hr]
        rw [hpar, walkLoop_none]
        rw [hmn]
      | cons m2 rest2 =>
        have h2 : m = n ∧ ∃ p, n.parent = some p ∧ p ≠ "" ∧
            ∃ n2, alookup p nodes = some n2 ∧ ValidChainFrom nodes n2 (m2 :: rest2) := by
          simpa only [ValidChainFrom] using hvalid
        obtain ⟨-, p, hp, hpne, n2, hlook, hvalid2⟩ := h2
        have hpar : parentOf nodes n = some n2 := by
          simp [parentOf, hp, hpne, hlook]
        rw [hpar]
        have hnodup2 : ((m2 :: rest2).map (fun x => x.id)).Nodup := by
          simpa using hnodup.of_cons
        have hvis2 : ∀ x ∈ m2 :: rest2, x.id ∉ n.id :: visited := by
          intro x hx
          intro hxin
          rcases List.mem_cons.mp hxin with hxe | hxv
          · have hmid : m.id ∉ ((m2 :: rest2).map (fun y => y.id)) := by
              have := hnodup
              simp only [List.map_cons, List.nodup_cons] at this
              exact this.1
            apply hmid
            rw [hmn, ← hxe]
            exact List.mem_map_of_mem _ hx
          · exact hvis x (List.mem_cons_of_mem _ hx) hxv
        rw [ih n2 (n.id :: visited) f hvalid2 hnodup2 hvis2 (by simpa using hlen)]
        rw [hmn]

theorem walkPath_of_validChain (nodes : List (String × RawNode)) (current : String)
    (n0 : RawNode) (chain : List RawNode)
    (h0 : alookup current nodes = some n0) (hchain : ValidChainFrom nodes n0 chain)
    (hnodup : (chain.map (fun m => m.id)).Nodup) :
    walkPath nodes current = chain := by
  unfold walkPath
  rw [h0]
  apply walkLoop_of_validChain nodes chain n0 [] (nodes.length + 1) hchain hnodup (by simp)
  have hsub : chain.map (fun m => m.id) ⊆ (nodes.map Prod.snd).map (fun m => m.id) := by
    intro i hi
    rcases List.mem_map.mp hi with ⟨x, hx, hxi⟩
    exact List.mem_map.mpr
      ⟨x, chain_mem_values nodes chain n0 hchain (alookup_mem current nodes n0 h0) x hx, hxi⟩
  have := nodup_subset_length_le _ _ hnodup hsub
  simp at this
  omega

/-! ## Conversion fold lemmas for claim C4 -/

theorem transformMessage_none (node : RawNode) (nodes : List (String × RawNode))
    (assetsJson : AssetsIndex) (h : node.message = none) :
    transformMessage node nodes assetsJson = (none, []) := by
  simp [transformMessage, h]

theorem transformMessage_isSome (node : RawNode) (nodes : List (String × RawNode))
    (assetsJson : AssetsIndex) (raw : RawMessage) (h : node.message = some raw) :
    (transformMessage node nodes assetsJson).1.isSome = true := by
  simp [transformMessage, h]

theorem convStep_messages_none (nodes : List (String × RawNode))
    (assetsJson : AssetsIndex) (st : ConvState) (node : RawNode)
    (h : node.message = none) : convStep nodes assetsJson st node = st := by
  simp [convStep, h]

theorem convStep_messages_some (nodes : List (String × RawNode))
    (assetsJson : AssetsIndex) (st : ConvState) (node : RawNode) (raw : RawMessage)
    (m : Message) (pairs : List (String × String)) (h : node.message = some raw)
    (htm : transformMessage node nodes assetsJson = (some m, pairs)) :
    (convStep nodes assetsJson st node).messages = st.messages ++ [m] := by
  simp only [convStep, h, htm]

theorem foldl_convStep_messages (nodes : List (String × RawNode))
    (assetsJson : AssetsIndex) (l : List RawNode) :
    ∀ st : ConvState, (l.foldl (convStep nodes assetsJson) st).messages =
      st.messages ++ l.filterMap (fun m => (transformMessage m nodes assetsJson).1) := by
  induction l with
  | nil => intro st; simp
  | cons node rest ih =>
    intro st
    simp only [List.foldl_cons, List.filterMap_cons]
    rcases hmsg : node.message with _ | raw
    · rw [convStep_messages_none nodes assetsJson st node hmsg,
        transformMessage_none node nodes assetsJson hmsg]
      exact ih st
    · rcases htm : transformMessage node nodes assetsJson with ⟨mopt, pairs⟩
      cases mopt with
      | none =>
        have := transformMessage_isSome node nodes assetsJson raw hmsg
        rw [htm] at this
        simp at this
      | some m =>
        rw [ih (convStep nodes assetsJson st node),
          convStep_messages_some nodes assetsJson st node raw m pairs hmsg htm]
        simp

/-! ## Claim C4: conversion follows the valid parent chain -/

/-- Claim C4: for every raw graph whose mapping and current node are present
and truthy, and every acyclic parent chain from the current node to the root
with all parent references present, the traversal yields exactly that chain,
and the converted conversation contains exactly the messages produced from
the chain's nodes in root-to-leaf chronological order, the reverse of the
parent-link traversal order; conversion returns nothing exactly when that
message list is empty. -/
theorem conversionFollowsChain (raw : RawConversation) (nodes : List (String × RawNode))
    (assetsJson : AssetsIndex) (current : String) (n0 : RawNode) (chain : List RawNode)
    (hmap : raw.mapping = some nodes) (hcur : raw.current_node = some current)
    (hne : current ≠ "") (h0 : alookup current nodes = some n0)
    (hchain : ValidChainFrom nodes n0 chain)
    (hnodup : (chain.map (fun m => m.id)).Nodup) :
    walkPath nodes current = chain ∧
    ((convertRawConversation raw assetsJson).elim
      (chain.reverse.filterMap (fun m => (transformMessage m nodes assetsJson).1) = [])
      (fun res => res.conversation.messages =
        chain.reverse.filterMap (fun m => (transformMessage m nodes assetsJson).1))) := by
  have hwalk := walkPath_of_validChain nodes current n0 chain h0 hchain hnodup
  refine ⟨hwalk, ?_⟩
  have hconv : convertRawConversation raw assetsJson =
      convertCore nodes current raw assetsJson := by
    simp [convertRawConversation, hmap, hcur, hne]
  have hst : (convertStateOf nodes current raw assetsJson).messages =
      chain.reverse.filterMap (fun m => (transformMessage m nodes assetsJson).1) := by
    unfold convertStateOf
    rw [hwalk, foldl_convStep_messages]
    simp
  rw [hconv]
  simp only [convertCore]
  by_cases he : (convertStateOf nodes current raw assetsJson).messages.isEmpty
  · rw [if_pos he]
    show chain.reverse.filterMap (fun m => (transformMessage m nodes assetsJson).1) = []
    rw [← hst]
    exact List.isEmpty_iff.mp he
  · rw [if_neg he]
    show (convertStateOf nodes current raw assetsJson).messages =
      chain.reverse.filterMap (fun m => (transformMessage m nodes assetsJson).1)
    exact hst

/-- Claim C4 witness: the chain theorem applied to the concrete one-node
fixture graph. -/
theorem conversionFollowsChain_witness :
    walkPath [("n1", wNode)] "n1" = [wNode] ∧
    ((convertRawConversation wGraph []).elim
      (([wNode]).reverse.filterMap (fun m => (transformMessage m [("n1", wNode)] []).1) = [])
      (fun res => res.conversation.messages =
        ([wNode]).reverse.filterMap (fun m => (transformMessage m [("n1", wNode)] []).1))) :=
  conversionFollowsChain wGraph [("n1", wNode)] [] "n1" wNode [wNode] rfl rfl
    (by decide) rfl (by exact ⟨rfl, Or.inl rfl⟩) (by decide)

/-! ## Claim C7: last_message_time unit mixing -/

/-- Claim C7 (code bug evaluation): on the fixture graph with raw update time
one hundred seconds and a message created at five seconds, the converter
compares the already-normalized message time five thousand against the raw
one hundred and then normalizes the winner a second time, producing 5000000
milliseconds, while the spec maximum of the normalized candidates is 100000
milliseconds. -/
theorem lastMessageTime_mixed_units_eval :
    (convertRawConversation wGraph []).map (fun r => r.conversation.last_message_time) =
      some 5000000 ∧
    specLastMessageTime wGraph [5] = 100000 := by
  constructor
  · rfl
  · rfl

/-! ## Clone id lemmas -/

theorem strAppend_data (a b : String) : (a ++ b).data = a.data ++ b.data := by
  cases a
  cases b
  rfl

theorem takeWhile_append_all (p : Char → Bool) (l1 l2 : List Char)
    (h : ∀ c ∈ l1, p c = true) :
    (l1 ++ l2).takeWhile p = l1 ++ l2.takeWhile p := by
  induction l1 with
  | nil => simp
  | cons c t ih =>
    have hc := h c (by simp)
    simp only [List.cons_append, List.takeWhile_cons, hc, if_pos]
    rw [ih (fun x hx => h x (by simp [hx]))]

theorem dropWhile_append_all (p : Char → Bool) (l1 l2 : List Char)
    (h : ∀ c ∈ l1, p c = true) :
    (l1 ++ l2).dropWhile p = l2.dropWhile p := by
  induction l1 with
  | nil => simp
  | cons c t ih =>
    have hc := h c (by simp)
    simp only [List.cons_append, List.dropWhile_cons, hc, if_pos]
    exact ih (fun x hx => h x (by simp [hx]))

theorem splitCloneId_clone (base : String) (n : Nat) :
    splitCloneId (base ++ "_v" ++ natRepr n) = (base, n) := by
  have hvd : ("_v" : String).data = ['_', 'v'] := rfl
  have hdata : (base ++ "_v" ++ natRepr n).data =
      base.data ++ '_' :: 'v' :: natToDigits n := by
    rw [strAppend_data, strAppend_data, hvd]
    show base.data ++ ['_', 'v'] ++ natToDigits n = base.data ++ '_' :: 'v' :: natToDigits n
    rw [List.append_assoc]
    rfl
  have hall : ∀ c ∈ (natToDigits n).reverse, Char.isDigit c = true := by
    intro c hc
    exact natToDigits_all_digits n c (List.mem_reverse.mp hc)
  have hvnd : Char.isDigit 'v' = false := rfl
  simp only [splitCloneId]
  rw [hdata, List.reverse_append]
  have hrev : ('_' :: 'v' :: natToDigits n).reverse =
      (natToDigits n).reverse ++ ['v', '_'] := by
    simp
  rw [hrev, List.append_assoc]
  have htake : ((natToDigits n).reverse ++ (['v', '_'] ++ base.data.reverse)).takeWhile
      Char.isDigit = (natToDigits n).reverse := by
    rw [takeWhile_append_all _ _ _ hall]
    simp [List.takeWhile_cons, hvnd]
  have hdrop : ((natToDigits n).reverse ++ (['v', '_'] ++ base.data.reverse)).dropWhile
      Char.isDigit = 'v' :: '_' :: base.data.reverse := by
    rw [dropWhile_append_all _ _ _ hall]
    simp [List.dropWhile_cons, hvnd]
  rw [htake, hdrop]
  rcases hnd : (natToDigits n).reverse with _ | ⟨c, cs⟩
  · exfalso
    apply natToDigits_ne_nil n
    have := congrArg List.reverse hnd
    simpa using this
  · show (String.mk base.data.reverse.reverse, digitsToNat (c :: cs).reverse) = (base, n)
    rw [← hnd, List.reverse_reverse, List.reverse_reverse, stringMk_data,
      digitsToNat_natToDigits]

theorem alookup_isSome_iff_mem {β : Type} (k : String) (l : List (String × β)) :
    (alookup k l).isSome = true ↔ k ∈ akeys l := by
  rcases h : alookup k l with _ | v
  · simp
    exact (alookup_none_iff_not_mem_akeys k l).mp h
  · simp
    by_contra hmem
    rw [(alookup_none_iff_not_mem_akeys k l).mpr hmem] at h
    exact absurd h (by simp)

theorem highestSuffix_ge_of_mem (b : String) (ids : List String) (id : String)
    (hmem : id ∈ ids) (hb : (splitCloneId id).1 = b) :
    (splitCloneId id).2 ≤ highestSuffix b ids := by
  induction ids with
  | nil => simp at hmem
  | cons x rest ih =>
    rcases List.mem_cons.mp hmem with rfl | hmem2
    · simp only [highestSuffix, hb, if_pos]
      exact Nat.le_max_left _ _
    · simp only [highestSuffix]
      by_cases hx : (splitCloneId x).1 = b
      · rw [if_pos hx]
        exact le_trans (ih hmem2) (Nat.le_max_right _ _)
      · rw [if_neg hx]
        exact ih hmem2

theorem highestSuffix_append_one (b : String) (ids : List String) (id : String) :
    highestSuffix b (ids ++ [id]) =
      if (splitCloneId id).1 = b then Nat.max (splitCloneId id).2 (highestSuffix b ids)
      else highestSuffix b ids := by
  induction ids with
  | nil =>
    simp [highestSuffix]
  | cons x rest ih =>
    simp only [List.cons_append, highestSuffix]
    by_cases hx : (splitCloneId x).1 = b <;> by_cases hid : (splitCloneId id).1 = b <;>
      simp [hx, hid, ih, Nat.max_comm, Nat.max_assoc, Nat.max_left_comm,
        sup_comm, sup_assoc, sup_left_comm]

theorem trackStep_getD (tracker : List (String × Nat)) (id b : String) :
    (alookup b (trackStep tracker id)).getD 0 =
      if (splitCloneId id).1 = b then
        Nat.max (splitCloneId id).2 ((alookup b tracker).getD 0)
      else (alookup b tracker).getD 0 := by
  unfold trackStep
  by_cases hgt : (splitCloneId id).2 > (alookup (splitCloneId id).1 tracker).getD 0
  · rw [if_pos hgt]
    by_cases hb : (splitCloneId id).1 = b
    · rw [if_pos hb, ← hb, alookup_aset_self]
      simp only [Option.getD_some]
      exact (Nat.max_eq_left (Nat.le_of_lt hgt)).symm
    · rw [if_neg hb, alookup_aset_ne _ _ _ _ hb]
  · rw [if_neg hgt]
    by_cases hb : (splitCloneId id).1 = b
    · rw [if_pos hb]
      rw [hb] at hgt
      exact (Nat.max_eq_right (Nat.le_of_not_lt hgt)).symm
    · rw [if_neg hb]

theorem foldl_trackStep_getD (ids : List String) :
    ∀ (t : List (String × Nat)) (b : String),
      (alookup b (ids.foldl trackStep t)).getD 0 =
        Nat.max (highestSuffix b ids) ((alookup b t).getD 0) := by
  induction ids with
  | nil =>
    intro t b
    simp [highestSuffix]
  | cons id rest ih =>
    intro t b
    simp only [List.foldl_cons, highestSuffix]
    rw [ih (trackStep t id) b, trackStep_getD t id b]
    split_ifs <;> simp [Nat.max_comm, Nat.max_assoc, Nat.max_left_comm,
      sup_comm, sup_assoc, sup_left_comm]

theorem buildCloneTracker_exact (ids : List String) (b : String) :
    (alookup b (buildCloneTracker ids)).getD 0 = highestSuffix b ids := by
  unfold buildCloneTracker
  rw [foldl_trackStep_getD]
  simp [alookup]

theorem clonePayloadWithId_id (payload : ServerPayload) (newId : String) :
    (clonePayloadWithId payload newId).conversation.id = newId := rfl

theorem ensureClonePayloadId_clone (payload : ServerPayload)
    (merged : List (String × ServerPayload)) (tracker : List (String × Nat))
    (base : String) (s H : Nat)
    (hsplit : splitCloneId payload.conversation.id = (base, s))
    (hH : highestSuffix base (akeys merged) = H)
    (hexact : TrackerExact merged tracker)
    (hsome : (alookup payload.conversation.id merged).isSome = true) :
    ensureClonePayloadId payload merged tracker =
      (clonePayloadWithId payload (base ++ "_v" ++ natRepr (H + 1)),
       aset base (H + 1) tracker) := by
  have hmem : payload.conversation.id ∈ akeys merged :=
    (alookup_isSome_iff_mem _ _).mp hsome
  have hsle : s ≤ H := by
    have h2 := highestSuffix_ge_of_mem base (akeys merged) payload.conversation.id hmem
      (by rw [hsplit])
    rw [hsplit] at h2
    simp at h2
    omega
  have htr : (alookup base tracker).getD 0 = H := by
    rw [hexact base, hH]
  have hstart : Nat.max ((alookup base tracker).getD s) s = H := by
    rcases halo : alookup base tracker with _ | h
    · rw [halo] at htr
      simp at htr
      simp [halo]
      omega
    · rw [halo] at htr
      simp at htr
      simp [halo]
      have hmx : Nat.max h s = h := Nat.max_eq_left (by omega)
      omega
  have hfresh : (alookup (base ++ "_v" ++ natRepr (H + 1)) merged).isSome = false := by
    cases hiso : (alookup (base ++ "_v" ++ natRepr (H + 1)) merged).isSome
    · rfl
    · exfalso
      have hmem2 := (alookup_isSome_iff_mem _ _).mp hiso
      have hge := highestSuffix_ge_of_mem base (akeys merged) _ hmem2
        (by rw [splitCloneId_clone])
      rw [splitCloneId_clone] at hge
      simp at hge
      omega
  have hfind : findFreshSuffix merged base (H + 1) (merged.length + 1) = H + 1 := by
    simp [findFreshSuffix, hfresh]
  have hstart1 : Nat.max ((alookup base tracker).getD s) s + 1 = H + 1 := by
    rw [hstart]
  simp only [ensureClonePayloadId]
  rw [hsplit]
  simp only [if_pos hsome]
  rw [hstart1, hfind]

theorem ensureClonePayloadId_fresh (payload : ServerPayload)
    (merged : List (String × ServerPayload)) (tracker : List (String × Nat))
    (hnone : (alookup payload.conversation.id merged).isSome = false) :
    ensureClonePayloadId payload merged tracker =
      (payload, trackStep tracker payload.conversation.id) := by
  simp only [ensureClonePayloadId]
  rw [hnone]
  simp

theorem trackStep_exact_of_append (merged : List (String × ServerPayload))
    (tracker : List (String × Nat)) (p : ServerPayload)
    (hexact : TrackerExact merged tracker)
    (hnone : alookup p.conversation.id merged = none) :
    TrackerExact (aset p.conversation.id p merged)
      (trackStep tracker p.conversation.id) := by
  intro b
  rw [trackStep_getD, akeys_aset_absent _ _ _ hnone, highestSuffix_append_one]
  rw [hexact b]

theorem cloneMergeStep_spec (merged : List (String × ServerPayload))
    (tracker : List (String × Nat)) (p : ServerPayload)
    (hexact : TrackerExact merged tracker) :
    (∀ id v, alookup id merged = some v →
      alookup id (cloneMergeStep (merged, tracker) p).1 = some v) ∧
    (cloneMergeStep (merged, tracker) p).1.length = merged.length + 1 ∧
    ((akeys merged).Nodup → (akeys (cloneMergeStep (merged, tracker) p).1).Nodup) ∧
    TrackerExact (cloneMergeStep (merged, tracker) p).1
      (cloneMergeStep (merged, tracker) p).2 := by
  cases hiso : (alookup p.conversation.id merged).isSome
  · have hnone : alookup p.conversation.id merged = none := by
      rcases ha : alookup p.conversation.id merged with _ | v
      · rfl
      · rw [ha] at hiso
        exact absurd hiso (by simp)
    have hstep : cloneMergeStep (merged, tracker) p =
        (aset p.conversation.id p merged, trackStep tracker p.conversation.id) := by
      simp only [cloneMergeStep, ensureClonePayloadId_fresh p merged tracker hiso]
    rw [hstep]
    refine ⟨?_, length_aset_absent _ _ _ hnone, nodup_akeys_aset _ _ _, ?_⟩
    · intro id v hv
      have hne : p.conversation.id ≠ id := by
        intro he
        rw [he] at hnone
        rw [hnone] at hv
        exact absurd hv (by simp)
      rw [alookup_aset_ne _ _ _ _ hne]
      exact hv
    · exact trackStep_exact_of_append merged tracker p hexact hnone
  · have heq := ensureClonePayloadId_clone p merged tracker
      (splitCloneId p.conversation.id).1 (splitCloneId p.conversation.id).2
      (highestSuffix (splitCloneId p.conversation.id).1 (akeys merged)) rfl rfl hexact hiso
    have hnewid : (ensureClonePayloadId p merged tracker).1.conversation.id =
        (splitCloneId p.conversation.id).1 ++ "_v" ++
          natRepr (highestSuffix (splitCloneId p.conversation.id).1 (akeys merged) + 1) := by
      rw [heq]
      exact clonePayloadWithId_id p _
    have hfresh : alookup ((splitCloneId p.conversation.id).1 ++ "_v" ++
        natRepr (highestSuffix (splitCloneId p.conversation.id).1 (akeys merged) + 1))
        merged = none := by
      rcases ha : alookup ((splitCloneId p.conversation.id).1 ++ "_v" ++
          natRepr (highestSuffix (splitCloneId p.conversation.id).1 (akeys merged) + 1))
          merged with _ | v
      · rfl
      · exfalso
        have hmem2 := (alookup_isSome_iff_mem _ merged).mp (by rw [ha]; rfl)
        have hge := highestSuffix_ge_of_mem (splitCloneId p.conversation.id).1
          (akeys merged) _ hmem2 (by rw [splitCloneId_clone])
        rw [splitCloneId_clone] at hge
        simp at hge
    have hstep : cloneMergeStep (merged, tracker) p =
        (aset ((splitCloneId p.conversation.id).1 ++ "_v" ++
            natRepr (highestSuffix (splitCloneId p.conversation.id).1 (akeys merged) + 1))
          (ensureClonePayloadId p merged tracker).1 merged,
         aset (splitCloneId p.conversation.id).1
          (highestSuffix (splitCloneId p.conversation.id).1 (akeys merged) + 1) tracker) := by
      simp only [cloneMergeStep]
      rw [hnewid, heq]
    rw [hstep]
    refine ⟨?_, length_aset_absent _ _ _ hfresh, nodup_akeys_aset _ _ _, ?_⟩
    · intro id v hv
      have hne : ((splitCloneId p.conversation.id).1 ++ "_v" ++
          natRepr (highestSuffix (splitCloneId p.conversation.id).1 (akeys merged) + 1)) ≠
          id := by
        intro he
        rw [he] at hfresh
        rw [hfresh] at hv
        exact absurd hv (by simp)
      rw [alookup_aset_ne _ _ _ _ hne]
      exact hv
    · intro b
      rw [akeys_aset_absent _ _ _ hfresh, highestSuffix_append_one, splitCloneId_clone]
      by_cases hb : (splitCloneId p.conversation.id).1 = b
      · rw [if_pos hb, ← hb, alookup_aset_self]
        simp only [Option.getD_some]
        have hmx : Nat.max
            (highestSuffix (splitCloneId p.conversation.id).1 (akeys merged) + 1)
            (highestSuffix (splitCloneId p.conversation.id).1 (akeys merged)) =
            highestSuffix (splitCloneId p.conversation.id).1 (akeys merged) + 1 :=
          Nat.max_eq_left (by omega)
        omega
      · rw [if_neg hb, alookup_aset_ne _ _ _ _ hb, hexact b]

theorem runCloneMerge_invariant (incoming : List ServerPayload) :
    ∀ (merged : List (String × ServerPayload)) (tracker : List (String × Nat)),
      (akeys merged).Nodup → TrackerExact merged tracker →
      (∀ id v, alookup id merged = some v →
        alookup id (runCloneMerge merged tracker incoming).1 = some v) ∧
      (runCloneMerge merged tracker incoming).1.length =
        merged.length + incoming.length ∧
      (akeys (runCloneMerge merged tracker incoming).1).Nodup := by
  induction incoming with
  | nil =>
    intro merged tracker hnodup hexact
    exact ⟨fun id v hv => hv, by simp [runCloneMerge], hnodup⟩
  | cons p rest ih =>
    intro merged tracker hnodup hexact
    have hspec := cloneMergeStep_spec merged tracker p hexact
    have hrun : runCloneMerge merged tracker (p :: rest) =
        runCloneMerge (cloneMergeStep (merged, tracker) p).1
          (cloneMergeStep (merged, tracker) p).2 rest := by
      simp [runCloneMerge]
    have hnext := ih (cloneMergeStep (merged, tracker) p).1
      (cloneMergeStep (merged, tracker) p).2 (hspec.2.2.1 hnodup) hspec.2.2.2
    rw [hrun]
    refine ⟨?_, ?_, hnext.2.2⟩
    · intro id v hv
      exact hnext.1 id v (hspec.1 id v hv)
    · rw [hnext.2.1, hspec.2.1]
      simp [List.length_cons]
      omega

/-- C2: under clone reconciliation an incoming conversation whose id already exists in
the dataset never overwrites the existing record: every pre-existing id still maps to its
original payload afterwards, every incoming payload adds one entry (final size is initial
size plus batch size), the resulting key set has no duplicates (assigned ids are unique
within the dataset), and whenever the incoming id collides, the assigned id is exactly
base ++ "_v" ++ (n + 1) where base is the id with any trailing _v<digits> suffix stripped
and n is the highest suffix for that base across the merged dataset so far — which covers
both the existing records and the ids already assigned during the same run, as the
per-base tracker stays exact at every step. -/
theorem cloneReconciliationFreshIds
    (merged0 : List (String × ServerPayload)) (incoming : List ServerPayload)
    (hnodup : (akeys merged0).Nodup) :
    (∀ id v, alookup id merged0 = some v →
      alookup id (runCloneMerge merged0 (buildCloneTracker (akeys merged0)) incoming).1 =
        some v) ∧
    (runCloneMerge merged0 (buildCloneTracker (akeys merged0)) incoming).1.length =
      merged0.length + incoming.length ∧
    (akeys (runCloneMerge merged0 (buildCloneTracker (akeys merged0)) incoming).1).Nodup ∧
    (∀ merged tracker p, TrackerExact merged tracker →
      (alookup p.conversation.id merged).isSome = true →
      (ensureClonePayloadId p merged tracker).1.conversation.id =
        (splitCloneId p.conversation.id).1 ++ "_v" ++
          natRepr (highestSuffix (splitCloneId p.conversation.id).1 (akeys merged) + 1)) := by
  have hexact0 : TrackerExact merged0 (buildCloneTracker (akeys merged0)) :=
    fun b => buildCloneTracker_exact (akeys merged0) b
  have hrun := runCloneMerge_invariant incoming merged0 (buildCloneTracker (akeys merged0))
    hnodup hexact0
  refine ⟨hrun.1, hrun.2.1, hrun.2.2, ?_⟩
  intro merged tracker p hexact hiso
  have heq := ensureClonePayloadId_clone p merged tracker
    (splitCloneId p.conversation.id).1 (splitCloneId p.conversation.id).2
    (highestSuffix (splitCloneId p.conversation.id).1 (akeys merged)) rfl rfl hexact hiso
  rw [heq]
  exact clonePayloadWithId_id p _

theorem cloneReconciliationFreshIds_witness :
    (akeys wCloneMerged).Nodup ∧
    (runCloneMerge wCloneMerged (buildCloneTracker (akeys wCloneMerged))
      [wPayload "c1" 2]).1.length = wCloneMerged.length + 1 :=
  ⟨by decide, (cloneReconciliationFreshIds wCloneMerged [wPayload "c1" 2] (by decide)).2.1⟩

/-- On a full tie (equal last message time, equal node count) the browser-side
upsert prefilter isNewerSummary keeps the existing record even though the
incoming one arrived later in ingestion order, while the spec order (and the
server-side shouldReplace) lets the later ingestion order win. -/
theorem upsertTieOrder_cex :
    isNewerSummary (wSummaryTN 200 5) (some (wSummaryTN 200 5)) = false ∧
    shouldReplace
      { last_message_time := 200, mappingNodeCount := some 5, importOrder := 0 }
      { last_message_time := 200, mappingNodeCount := some 5, importOrder := 1 } = true ∧
    specStrictlyNewer
      { last_message_time := 200, mappingNodeCount := some 5, importOrder := 1 }
      { last_message_time := 200, mappingNodeCount := some 5, importOrder := 0 } = true := by
  refine ⟨rfl, by decide, by decide⟩

/-- C1 (amended): the server-side upsert step adds an unmatched incoming
conversation unconditionally and replaces a matched one exactly when
shouldReplace prefers it, and shouldReplace coincides with the spec's total
order (greater last_message_time, then greater node count, then later
ingestion order); the browser-side prefilter isNewerSummary, however, follows
that order only down to the node-count comparison and has no ingestion-order
tiebreak — on a full tie it keeps the existing record — while an incoming
summary with no existing match is always accepted. -/
theorem upsertReplacementOrder :
    (∀ merged p, alookup p.conversation.id merged = none →
      upsertStep merged p = aset p.conversation.id p merged) ∧
    (∀ merged p existing, alookup p.conversation.id merged = some existing →
      upsertStep merged p =
        (if shouldReplace existing.cmp p.cmp then aset p.conversation.id p merged
         else merged)) ∧
    (∀ current incoming, shouldReplace current incoming =
      specStrictlyNewer incoming current) ∧
    (∀ incoming existing, isNewerSummary incoming (some existing) =
      newerNoOrderTiebreak incoming existing) ∧
    (∀ incoming, isNewerSummary incoming none = true) := by
  refine ⟨?_, ?_, shouldReplace_eq_specStrictlyNewer,
    isNewerSummary_eq_newerNoOrderTiebreak, fun incoming => rfl⟩
  · intro merged p hnone
    unfold upsertStep
    rw [hnone]
  · intro merged p existing hsome
    unfold upsertStep
    rw [hsome]

theorem mem_akeys_upsertStep (merged : List (String × ServerPayload))
    (p : ServerPayload) (j : String) :
    j ∈ akeys (upsertStep merged p) ↔ j ∈ akeys merged ∨ j = p.conversation.id := by
  unfold upsertStep
  rcases ha : alookup p.conversation.id merged with _ | existing
  · exact mem_akeys_aset _ _ _ _
  · dsimp only
    split_ifs
    · exact mem_akeys_aset _ _ _ _
    · constructor
      · exact Or.inl
      · rintro (hj | rfl)
        · exact hj
        · have hne : alookup p.conversation.id merged ≠ none := by rw [ha]; simp
          by_contra hnotmem
          exact hne ((alookup_none_iff_not_mem_akeys p.conversation.id merged).mpr hnotmem)

theorem nodup_akeys_upsertStep (merged : List (String × ServerPayload))
    (p : ServerPayload) (h : (akeys merged).Nodup) :
    (akeys (upsertStep merged p)).Nodup := by
  unfold upsertStep
  rcases alookup p.conversation.id merged with _ | existing
  · exact nodup_akeys_aset _ _ _ h
  · dsimp only
    split_ifs
    · exact nodup_akeys_aset _ _ _ h
    · exact h

theorem mem_akeys_runUpsertMerge (batch : List ServerPayload) :
    ∀ (merged : List (String × ServerPayload)) (j : String),
      j ∈ akeys (runUpsertMerge merged batch) ↔
        j ∈ akeys merged ∨ j ∈ batch.map (fun p => p.conversation.id) := by
  induction batch with
  | nil => intro merged j; simp [runUpsertMerge]
  | cons p rest ih =>
    intro merged j
    have hrun : runUpsertMerge merged (p :: rest) =
        runUpsertMerge (upsertStep merged p) rest := by
      simp [runUpsertMerge]
    rw [hrun, ih (upsertStep merged p) j, mem_akeys_upsertStep]
    simp [List.mem_cons]
    tauto

theorem nodup_akeys_runUpsertMerge (batch : List ServerPayload) :
    ∀ (merged : List (String × ServerPayload)), (akeys merged).Nodup →
      (akeys (runUpsertMerge merged batch)).Nodup := by
  induction batch with
  | nil => intro merged h; exact h
  | cons p rest ih =>
    intro merged h
    have hrun : runUpsertMerge merged (p :: rest) =
        runUpsertMerge (upsertStep merged p) rest := by
      simp [runUpsertMerge]
    rw [hrun]
    exact ih (upsertStep merged p) (nodup_akeys_upsertStep merged p h)

/-- C8: re-running the upsert merge with a batch carrying the same conversation
ids as an already-applied batch changes neither the set of conversation ids nor
the conversation count: every id of the second run's input is already a key of
the first run's result, upsertStep only ever inserts under the incoming id, and
key-set Nodup is preserved, so the second run is a permutation-level no-op on
ids and the dataset size stays fixed. -/
theorem upsertIdempotentIds (m0 : List (String × ServerPayload))
    (batch batch2 : List ServerPayload)
    (hnodup : (akeys m0).Nodup)
    (hids : batch2.map (fun p => p.conversation.id) =
      batch.map (fun p => p.conversation.id)) :
    (∀ id, id ∈ akeys (runUpsertMerge (runUpsertMerge m0 batch) batch2) ↔
      id ∈ akeys (runUpsertMerge m0 batch)) ∧
    (runUpsertMerge (runUpsertMerge m0 batch) batch2).length =
      (runUpsertMerge m0 batch).length := by
  have hmem : ∀ id, id ∈ akeys (runUpsertMerge (runUpsertMerge m0 batch) batch2) ↔
      id ∈ akeys (runUpsertMerge m0 batch) := by
    intro id
    rw [mem_akeys_runUpsertMerge batch2 (runUpsertMerge m0 batch) id, hids]
    constructor
    · rintro (hin | hin)
      · exact hin
      · exact (mem_akeys_runUpsertMerge batch m0 id).mpr (Or.inr hin)
    · exact Or.inl
  have hn1 : (akeys (runUpsertMerge m0 batch)).Nodup :=
    nodup_akeys_runUpsertMerge batch m0 hnodup
  have hn2 : (akeys (runUpsertMerge (runUpsertMerge m0 batch) batch2)).Nodup :=
    nodup_akeys_runUpsertMerge batch2 (runUpsertMerge m0 batch) hn1
  refine ⟨hmem, ?_⟩
  have hperm : List.Perm (akeys (runUpsertMerge (runUpsertMerge m0 batch) batch2))
      (akeys (runUpsertMerge m0 batch)) :=
    (List.perm_ext_iff_of_nodup hn2 hn1).mpr hmem
  have hlen := hperm.length_eq
  simpa [akeys] using hlen

theorem upsertIdempotentIds_witness :
    ((akeys wCloneMerged).Nodup ∧
      [wPayload "c1" 7].map (fun p => p.conversation.id) =
        [wPayload "c1" 2].map (fun p => p.conversation.id)) ∧
    (runUpsertMerge (runUpsertMerge wCloneMerged [wPayload "c1" 2])
      [wPayload "c1" 7]).length = (runUpsertMerge wCloneMerged [wPayload "c1" 2]).length :=
  ⟨⟨by decide, by decide⟩,
    (upsertIdempotentIds wCloneMerged [wPayload "c1" 2] [wPayload "c1" 7]
      (by decide) (by decide)).2⟩

theorem mem_intersectSets (a b : List String) (x : String) :
    x ∈ intersectSets a b ↔ x ∈ a ∧ x ∈ b := by
  unfold intersectSets
  split_ifs
  · simp [List.mem_filter]
  · simp [List.mem_filter]
    tauto

theorem mem_foldl_dedup (xs : List String) :
    ∀ (acc : List String) (x : String),
      x ∈ xs.foldl (fun acc x => if x ∈ acc then acc else acc ++ [x]) acc ↔
        x ∈ acc ∨ x ∈ xs := by
  induction xs with
  | nil => intro acc x; simp
  | cons a rest ih =>
    intro acc x
    simp only [List.foldl_cons]
    rw [ih]
    by_cases ha : a ∈ acc
    · rw [if_pos ha]
      simp only [List.mem_cons]
      constructor
      · tauto
      · rintro (hx | rfl | hx)
        · exact Or.inl hx
        · exact Or.inl ha
        · exact Or.inr hx
    · rw [if_neg ha]
      simp only [List.mem_append, List.mem_cons, List.mem_singleton]
      tauto

theorem mem_jsSetDedup (xs : List String) (x : String) :
    x ∈ jsSetDedup xs ↔ x ∈ xs := by
  unfold jsSetDedup
  rw [mem_foldl_dedup]
  simp

theorem alookup_buildPostings (g : String) (grams : List (String × List String)) :
    alookup g (buildPostings grams) = (alookup g grams).map jsSetDedup := by
  induction grams with
  | nil => rfl
  | cons e rest ih =>
    obtain ⟨k, v⟩ := e
    by_cases hk : k = g
    · simp [buildPostings, alookup, hk]
    · simpa [buildPostings, alookup, hk] using ih

theorem candidateLoop_missing (postings : List (String × List String)) (g : String) :
    ∀ (grams : List String), g ∈ grams → alookup g postings = none →
      ∀ acc, candidateLoop postings acc grams = none := by
  intro grams
  induction grams with
  | nil => intro h; exact absurd h (List.not_mem_nil g)
  | cons a rest ih =>
    intro hmem hnone acc
    rcases List.mem_cons.mp hmem with rfl | hmem2
    · simp [candidateLoop, hnone]
    · simp only [candidateLoop]
      rcases ha : alookup a postings with _ | ids
      · rfl
      · dsimp only
        split_ifs
        · rfl
        · exact ih hmem2 hnone _

theorem candidateLoop_some_mem (postings : List (String × List String)) :
    ∀ (grams : List String) (cur cs : List String),
      candidateLoop postings (some cur) grams = some cs →
      ∀ x, x ∈ cs ↔ x ∈ cur ∧ ∀ g ∈ grams,
        ∃ ids, alookup g postings = some ids ∧ x ∈ ids := by
  intro grams
  induction grams with
  | nil =>
    intro cur cs h x
    simp only [candidateLoop] at h
    injection h with h
    subst h
    simp
  | cons g rest ih =>
    intro cur cs h x
    simp only [candidateLoop] at h
    rcases ha : alookup g postings with _ | ids
    · rw [ha] at h; exact absurd h (by simp)
    · rw [ha] at h
      dsimp only at h
      by_cases hz : (intersectSets cur ids).length = 0
      · rw [if_pos hz] at h; exact absurd h (by simp)
      · rw [if_neg hz] at h
        rw [ih (intersectSets cur ids) cs h x, mem_intersectSets]
        constructor
        · rintro ⟨⟨hc, hi⟩, hrest⟩
          refine ⟨hc, ?_⟩
          intro g2 hg2
          rcases List.mem_cons.mp hg2 with rfl | hg3
          · exact ⟨ids, ha, hi⟩
          · exact hrest g2 hg3
        · rintro ⟨hc, hall⟩
          refine ⟨⟨hc, ?_⟩, ?_⟩
          · rcases hall g (List.mem_cons_self g rest) with ⟨ids2, ha2, hi2⟩
            rw [ha] at ha2
            injection ha2 with ha2
            subst ha2
            exact hi2
          · intro g2 hg2
            exact hall g2 (List.mem_cons_of_mem g hg2)

theorem candidateLoop_start (postings : List (String × List String))
    (g : String) (rest cs : List String)
    (h : candidateLoop postings none (g :: rest) = some cs) (x : String) :
    x ∈ cs ↔ ∀ g2 ∈ g :: rest, ∃ ids, alookup g2 postings = some ids ∧ x ∈ ids := by
  simp only [candidateLoop] at h
  rcases ha : alookup g postings with _ | ids
  · rw [ha] at h; exact absurd h (by simp)
  · rw [ha] at h
    dsimp only at h
    by_cases hz : ids.length = 0
    · rw [if_pos hz] at h; exact absurd h (by simp)
    · rw [if_neg hz] at h
      rw [candidateLoop_some_mem postings rest ids cs h x]
      constructor
      · rintro ⟨hi, hrest⟩ g2 hg2
        rcases List.mem_cons.mp hg2 with rfl | hg3
        · exact ⟨ids, ha, hi⟩
        · exact hrest g2 hg3
      · intro hall
        refine ⟨?_, fun g2 hg2 => hall g2 (List.mem_cons_of_mem g hg2)⟩
        rcases hall g (List.mem_cons_self g rest) with ⟨ids2, ha2, hi2⟩
        rw [ha] at ha2
        injection ha2 with ha2
        subst ha2
        exact hi2

theorem searchCandidates_short (prims : JsPrims) (gramsIndex : List (String × List String))
    (query : String) (h : (normalizeSearchText prims query).data.length < 3) :
    searchCandidates prims gramsIndex query = none := by
  simp only [searchCandidates]
  rw [if_pos h]

/-- C5: the search returns no results for a query whose normalized form is
shorter than three characters, returns no results as soon as one query
trigram has no posting entry in the bundle's gram index, and otherwise the
candidate conversation set is exactly the intersection of the posting sets of
all query trigrams: an id is a candidate precisely when every trigram's
posting list contains it. -/
theorem searchTrigramCandidates (prims : JsPrims) (bundle : SearchBundle)
    (query : String) (limit : Nat) :
    ((normalizeSearchText prims query).data.length < 3 →
      performSearch prims bundle query limit = []) ∧
    (∀ g ∈ buildTrigrams prims query, alookup g bundle.grams = none →
      performSearch prims bundle query limit = []) ∧
    (∀ cs, searchCandidates prims bundle.grams query = some cs →
      ∀ x, x ∈ cs ↔ ∀ g ∈ buildTrigrams prims query,
        ∃ ids, alookup g bundle.grams = some ids ∧ x ∈ ids) := by
  refine ⟨?_, ?_, ?_⟩
  · intro hlt
    simp [performSearch, searchCandidates_short prims bundle.grams query hlt]
  · intro g hg hnone
    have hforms : searchCandidates prims bundle.grams query = none := by
      by_cases hlt : (normalizeSearchText prims query).data.length < 3
      · exact searchCandidates_short _ _ _ hlt
      · simp only [searchCandidates, if_neg hlt]
        rcases htris : buildTrigrams prims query with _ | ⟨g0, rest⟩
        · rfl
        · rw [htris] at hg
          have hmiss : alookup g (buildPostings bundle.grams) = none := by
            rw [alookup_buildPostings, hnone]
            rfl
          exact candidateLoop_missing (buildPostings bundle.grams) g (g0 :: rest)
            hg hmiss none
    simp [performSearch, hforms]
  · intro cs hsc x
    by_cases hlt : (normalizeSearchText prims query).data.length < 3
    · rw [searchCandidates_short _ _ _ hlt] at hsc
      exact absurd hsc (by simp)
    · simp only [searchCandidates, if_neg hlt] at hsc
      rcases htris : buildTrigrams prims query with _ | ⟨g0, rest⟩
      · rw [htris] at hsc
        exact absurd hsc (by simp)
      · rw [htris] at hsc
        dsimp only at hsc
        rw [candidateLoop_start (buildPostings bundle.grams) g0 rest cs hsc x]
        constructor
        · intro hall g hg
          rcases hall g hg with ⟨ids, ha, hi⟩
          rw [alookup_buildPostings] at ha
          rcases hb : alookup g bundle.grams with _ | ids0
          · rw [hb] at ha; exact absurd ha (by simp)
          · rw [hb] at ha
            simp only [Option.map_some'] at ha
            injection ha with ha
            subst ha
            exact ⟨ids0, rfl, (mem_jsSetDedup ids0 x).mp hi⟩
        · intro hall g hg
          rcases hall g hg with ⟨ids, hb, hi⟩
          refine ⟨jsSetDedup ids, ?_, (mem_jsSetDedup ids x).mpr hi⟩
          rw [alookup_buildPostings, hb]
          rfl

/-- The browser importer processes a batch holding an unreadable archive to
the end (the other archives' conversations all reach conversion, with one
warning), while the server importer rejects the same batch with an error from
loadZipArchive, wherever the unreadable archive sits. -/
theorem serverBatchFailure_cex :
    (parseZips [Archive.readable [wGraph], Archive.unreadable]).1 = [wGraph] ∧
    (parseZips [Archive.readable [wGraph], Archive.unreadable]).2 = [unzipWarning] ∧
    importArchives [Archive.readable [wGraph], Archive.unreadable] =
      Except.error serverUnzipError ∧
    importArchives [Archive.unreadable, Archive.readable [wGraph]] =
      Except.error serverUnzipError :=
  ⟨rfl, rfl, rfl, rfl⟩

/-- C6 (amended): the browser importer parseExportZips skips an unreadable or
conversation-less archive with a warning and continues the batch — a skipped
head archive leaves the processed conversations exactly those of the
remaining batch and prepends one warning, and a readable archive contributes
its conversations unchanged; the server importer importDatasets, by contrast,
awaits loadZipArchive without a catch, so a batch holding any unreadable or
conversation-less archive fails as a whole with that archive's error. -/
theorem archiveErrorHandling :
    (∀ rest, parseZips (Archive.unreadable :: rest) =
      ((parseZips rest).1, unzipWarning :: (parseZips rest).2)) ∧
    (∀ rest, parseZips (Archive.readable [] :: rest) =
      ((parseZips rest).1, missingWarning :: (parseZips rest).2)) ∧
    (∀ convs rest, convs ≠ [] → parseZips (Archive.readable convs :: rest) =
      (convs ++ (parseZips rest).1, (parseZips rest).2)) ∧
    (∀ archives, Archive.unreadable ∈ archives →
      ∃ e, importArchives archives = Except.error e) ∧
    (∀ archives, Archive.readable [] ∈ archives →
      ∃ e, importArchives archives = Except.error e) := by
  refine ⟨fun rest => rfl, fun rest => rfl, ?_, ?_, ?_⟩
  · intro convs rest hne
    have hz : ¬ convs.length = 0 := by
      intro h
      exact hne (List.length_eq_zero.mp h)
    simp [parseZips, hz]
  · intro archives
    induction archives with
    | nil => intro h; exact absurd h (List.not_mem_nil _)
    | cons a rest ih =>
      intro hmem
      rcases List.mem_cons.mp hmem with rfl | hmem2
      · exact ⟨serverUnzipError, rfl⟩
      · rcases hla : loadZipArchive a with e | convs
        · exact ⟨e, by simp [importArchives, hla]⟩
        · rcases ih hmem2 with ⟨e, he⟩
          exact ⟨e, by simp [importArchives, hla, he]⟩
  · intro archives
    induction archives with
    | nil => intro h; exact absurd h (List.not_mem_nil _)
    | cons a rest ih =>
      intro hmem
      rcases List.mem_cons.mp hmem with rfl | hmem2
      · exact ⟨serverMissingError, rfl⟩
      · rcases hla : loadZipArchive a with e | convs
        · exact ⟨e, by simp [importArchives, hla]⟩
        · rcases ih hmem2 with ⟨e, he⟩
          exact ⟨e, by simp [importArchives, hla, he]⟩
